import Mathlib

/-!
Verification of the currentz cash-flow forecasting core.

The Go code under verification only ever manipulates `time.Time` values that
are UTC midnights (pgtype.Date scans, `Truncate(24 * time.Hour)` of wall-clock
times), so a date is embedded as its signed day count since 1970-01-01.
Monetary amounts (DECIMAL(10,2) columns scanned through pgtype.Numeric and
converted by NumericToFloat64) are embedded as exact rationals.

The first section is a verified proleptic-Gregorian calendar kernel giving
the civil-field views (year, month, day, weekday) of an epoch day count,
matching the semantics of Go's time package for UTC midnights.
-/

namespace Currentz

/-- Proleptic-Gregorian leap-year condition, as in Go time.isLeap. -/
def IsLeap (y : Int) : Prop := y % 4 = 0 ∧ (y % 100 ≠ 0 ∨ y % 400 = 0)

instance (y : Int) : Decidable (IsLeap y) := by unfold IsLeap; infer_instance

/-- One extra day in leap years, used by the month tables. -/
def leapAdj (y : Int) : Int := if IsLeap y then 1 else 0

/-- Length of year `y` in days. -/
def daysInYear (y : Int) : Int := 365 + leapAdj y

/-- Day count since epoch of January 1 of year `y` (closed form: days before
proleptic-Gregorian year `y`, shifted so that `yearStart 1970 = 0`). -/
def yearStart (y : Int) : Int :=
  365 * (y - 1) + (y - 1) / 4 - (y - 1) / 100 + (y - 1) / 400 - 719162

/-- Days before month `m` (1..12) in a year whose leap adjustment is `L`. -/
def daysBeforeMonthL (L m : Int) : Int :=
  if m ≤ 1 then 0
  else if m = 2 then 31
  else if m = 3 then 59 + L
  else if m = 4 then 90 + L
  else if m = 5 then 120 + L
  else if m = 6 then 151 + L
  else if m = 7 then 181 + L
  else if m = 8 then 212 + L
  else if m = 9 then 243 + L
  else if m = 10 then 273 + L
  else if m = 11 then 304 + L
  else 334 + L

/-- Days of year `y` strictly before month `m` (for `m` between 1 and 12). -/
def daysBeforeMonth (y m : Int) : Int := daysBeforeMonthL (leapAdj y) m

/-- Days of month `m` in a year whose leap adjustment is `L`. -/
def daysInMonthL (L m : Int) : Int :=
  if m = 2 then 28 + L
  else if m = 4 ∨ m = 6 ∨ m = 9 ∨ m = 11 then 30
  else 31

/-- Number of days of month `m` of year `y`. -/
def daysInMonth (y m : Int) : Int := daysInMonthL (leapAdj y) m

/-- Epoch day of the civil triple `(y, m, d)`, with Go time.Date month and day
normalization: the month is first brought into 1..12 shifting the year, and
the day offset is added linearly (exactly how time.Date builds its absolute
day count). -/
def daysFromCivil (y m d : Int) : Int :=
  yearStart (y + (m - 1) / 12) + daysBeforeMonth (y + (m - 1) / 12) ((m - 1) % 12 + 1) + (d - 1)

theorem leapAdj_cases (y : Int) : leapAdj y = 0 ∨ leapAdj y = 1 := by
  unfold leapAdj
  split <;> simp

theorem yearStart_succ (y : Int) : yearStart (y + 1) = yearStart y + 365 + leapAdj y := by
  simp only [yearStart, leapAdj, IsLeap]
  split <;> omega

theorem yearStart_step_ge (y : Int) : yearStart y + 365 ≤ yearStart (y + 1) := by
  have h := yearStart_succ y
  have := leapAdj_cases y
  omega

theorem yearStart_step_le (y : Int) : yearStart (y + 1) ≤ yearStart y + 366 := by
  have h := yearStart_succ y
  have := leapAdj_cases y
  omega

/-- Monotonicity of `yearStart`, with a 365-days-per-year lower bound. -/
theorem yearStart_mono_ge {y1 y2 : Int} (h : y1 ≤ y2) :
    yearStart y1 + 365 * (y2 - y1) ≤ yearStart y2 := by
  refine @Int.le_induction (fun t => yearStart y1 + 365 * (t - y1) ≤ yearStart t) y1 ?_ ?_ y2 h
  · omega
  · intro n hn ih
    have := yearStart_step_ge n
    omega

theorem yearStart_lt {y1 y2 : Int} (h : y1 < y2) : yearStart y1 < yearStart y2 := by
  have := yearStart_mono_ge (show y1 ≤ y2 by omega)
  omega

/-- Search upward for the year containing epoch day `z`, starting at `y`. -/
def yearOfUp (z y : Int) : Int :=
  if yearStart (y + 1) ≤ z then yearOfUp z (y + 1) else y
termination_by (z - yearStart y).toNat
decreasing_by
  have := yearStart_step_ge y
  omega

/-- Search downward for the year containing epoch day `z`, starting at `y`. -/
def yearOfDown (z y : Int) : Int :=
  if z < yearStart y then yearOfDown z (y - 1) else y
termination_by (yearStart y - z).toNat
decreasing_by
  have h2 := yearStart_step_ge (y - 1)
  have e : y - 1 + 1 = y := by ring
  rw [e] at h2
  omega

/-- The year containing epoch day `z`. -/
def yearOf (z : Int) : Int :=
  if yearStart 1970 ≤ z then yearOfUp z 1970 else yearOfDown z 1970

theorem yearOfUp_spec (z y : Int) (hpre : yearStart y ≤ z) :
    yearStart (yearOfUp z y) ≤ z ∧ z < yearStart (yearOfUp z y + 1) := by
  rw [yearOfUp]
  split
  next h => exact yearOfUp_spec z (y + 1) h
  next h => exact ⟨hpre, by omega⟩
termination_by (z - yearStart y).toNat
decreasing_by
  have := yearStart_step_ge y
  omega

theorem yearOfDown_spec (z y : Int) (hpre : z < yearStart (y + 1)) :
    yearStart (yearOfDown z y) ≤ z ∧ z < yearStart (yearOfDown z y + 1) := by
  rw [yearOfDown]
  split
  next h =>
    refine yearOfDown_spec z (y - 1) ?_
    have e : y - 1 + 1 = y := by ring
    rw [e]
    exact h
  next h => exact ⟨by omega, hpre⟩
termination_by (yearStart y - z).toNat
decreasing_by
  have h2 := yearStart_step_ge (y - 1)
  have e : y - 1 + 1 = y := by ring
  rw [e] at h2
  omega

theorem yearOf_spec (z : Int) :
    yearStart (yearOf z) ≤ z ∧ z < yearStart (yearOf z + 1) := by
  unfold yearOf
  split
  next h => exact yearOfUp_spec z 1970 h
  next h =>
    refine yearOfDown_spec z 1970 ?_
    have := yearStart_step_ge 1970
    omega

theorem yearOf_eq {y z : Int} (h1 : yearStart y ≤ z) (h2 : z < yearStart (y + 1)) :
    yearOf z = y := by
  rcases yearOf_spec z with ⟨hl, hr⟩
  by_contra hne
  rcases lt_or_gt_of_ne hne with hlt | hgt
  · have := yearStart_mono_ge (show yearOf z + 1 ≤ y by omega)
    omega
  · have := yearStart_mono_ge (show y + 1 ≤ yearOf z by omega)
    omega

/-- Month (1..12) holding day-of-year `doy` in a year with leap bit `L`. -/
def monthFromDoy (L doy : Int) : Int :=
  if doy < 31 then 1
  else if doy < 59 + L then 2
  else if doy < 90 + L then 3
  else if doy < 120 + L then 4
  else if doy < 151 + L then 5
  else if doy < 181 + L then 6
  else if doy < 212 + L then 7
  else if doy < 243 + L then 8
  else if doy < 273 + L then 9
  else if doy < 304 + L then 10
  else if doy < 334 + L then 11
  else 12

/-- Month (1..12) of epoch day `z`. -/
def monthOf (z : Int) : Int := monthFromDoy (leapAdj (yearOf z)) (z - yearStart (yearOf z))

/-- Day of month (1..31) of epoch day `z`. -/
def dayOf (z : Int) : Int :=
  z - yearStart (yearOf z) - daysBeforeMonth (yearOf z) (monthOf z) + 1

set_option maxHeartbeats 2000000 in
/-- Exhaustive case description of `monthFromDoy` with the bracket bounds. -/
theorem monthFromDoy_cases (L doy : Int) :
    monthFromDoy L doy = 1 ∧ doy < 31 ∨
    monthFromDoy L doy = 2 ∧ 31 ≤ doy ∧ doy < 59 + L ∨
    monthFromDoy L doy = 3 ∧ 59 + L ≤ doy ∧ doy < 90 + L ∨
    monthFromDoy L doy = 4 ∧ 90 + L ≤ doy ∧ doy < 120 + L ∨
    monthFromDoy L doy = 5 ∧ 120 + L ≤ doy ∧ doy < 151 + L ∨
    monthFromDoy L doy = 6 ∧ 151 + L ≤ doy ∧ doy < 181 + L ∨
    monthFromDoy L doy = 7 ∧ 181 + L ≤ doy ∧ doy < 212 + L ∨
    monthFromDoy L doy = 8 ∧ 212 + L ≤ doy ∧ doy < 243 + L ∨
    monthFromDoy L doy = 9 ∧ 243 + L ≤ doy ∧ doy < 273 + L ∨
    monthFromDoy L doy = 10 ∧ 273 + L ≤ doy ∧ doy < 304 + L ∨
    monthFromDoy L doy = 11 ∧ 304 + L ≤ doy ∧ doy < 334 + L ∨
    monthFromDoy L doy = 12 ∧ 334 + L ≤ doy := by
  unfold monthFromDoy
  split_ifs <;> omega

theorem monthFromDoy_mem (L doy : Int) :
    1 ≤ monthFromDoy L doy ∧ monthFromDoy L doy ≤ 12 := by
  rcases monthFromDoy_cases L doy with h | h | h | h | h | h | h | h | h | h | h | h <;> omega

theorem monthOf_mem (z : Int) : 1 ≤ monthOf z ∧ monthOf z ≤ 12 :=
  monthFromDoy_mem _ _

theorem dbm_bounds (L m : Int) (hL : L = 0 ∨ L = 1) (h1 : 1 ≤ m) (h2 : m ≤ 12) :
    0 ≤ daysBeforeMonthL L m ∧
      daysBeforeMonthL L m + daysInMonthL L m ≤ 365 + L := by
  interval_cases m <;> rcases hL with rfl | rfl <;> decide

theorem dim_bounds (L m : Int) (hL : L = 0 ∨ L = 1) :
    28 ≤ daysInMonthL L m ∧ daysInMonthL L m ≤ 31 := by
  unfold daysInMonthL
  split_ifs <;> omega

theorem dbm_mono (L m1 m2 : Int) (hL : L = 0 ∨ L = 1)
    (h1 : 1 ≤ m1) (h12 : m1 < m2) (h2 : m2 ≤ 12) :
    daysBeforeMonthL L m1 + daysInMonthL L m1 ≤ daysBeforeMonthL L m2 := by
  have h1b : m1 ≤ 11 := by omega
  have h2b : 2 ≤ m2 := by omega
  interval_cases m1 <;> interval_cases m2 <;> rcases hL with rfl | rfl <;> decide

/-- Consecutive months tile the year: days before month `m + 1` is days
before `m` plus the length of `m`. -/
theorem dbm_step (L m : Int) (hL : L = 0 ∨ L = 1) (h1 : 1 ≤ m) (h2 : m ≤ 11) :
    daysBeforeMonthL L (m + 1) = daysBeforeMonthL L m + daysInMonthL L m := by
  interval_cases m <;> rcases hL with rfl | rfl <;> decide

/-- December ends the year. -/
theorem dbm_last (L : Int) :
    daysBeforeMonthL L 12 + daysInMonthL L 12 = 365 + L := by
  norm_num [daysBeforeMonthL, daysInMonthL]
  ring

/-- Purely arithmetic month-bracket lemma on the tables. -/
theorem monthFromDoy_bracket (L doy : Int) (hL : L = 0 ∨ L = 1)
    (h0 : 0 ≤ doy) (h1 : doy < 365 + L) :
    daysBeforeMonthL L (monthFromDoy L doy) ≤ doy ∧
      doy < daysBeforeMonthL L (monthFromDoy L doy) + daysInMonthL L (monthFromDoy L doy) := by
  rcases monthFromDoy_cases L doy with h | h | h | h | h | h | h | h | h | h | h | h <;>
    rw [h.1] <;>
    simp only [daysBeforeMonthL, daysInMonthL] <;>
    norm_num <;>
    omega

/-- A day-of-year sitting in the bracket of a valid month `m` belongs to `m`. -/
theorem monthFromDoy_eq (L m doy : Int) (hL : L = 0 ∨ L = 1)
    (h1 : 1 ≤ m) (h2 : m ≤ 12)
    (hlo : daysBeforeMonthL L m ≤ doy)
    (hhi : doy < daysBeforeMonthL L m + daysInMonthL L m) :
    monthFromDoy L doy = m := by
  have hb := dbm_bounds L m hL h1 h2
  have hbr := monthFromDoy_bracket L doy hL (by omega) (by omega)
  have hM := monthFromDoy_mem L doy
  by_contra hne
  rcases lt_or_gt_of_ne hne with hlt | hgt
  · have := dbm_mono L (monthFromDoy L doy) m hL hM.1 hlt h2
    omega
  · have := dbm_mono L m (monthFromDoy L doy) hL h1 hgt hM.2
    omega

/-- The day-of-year of `z` falls inside the bracket of its month. -/
theorem monthOf_bracket (z : Int) :
    daysBeforeMonth (yearOf z) (monthOf z) ≤ z - yearStart (yearOf z) ∧
      z - yearStart (yearOf z) <
        daysBeforeMonth (yearOf z) (monthOf z) + daysInMonth (yearOf z) (monthOf z) := by
  have hspec := yearOf_spec z
  have hsucc := yearStart_succ (yearOf z)
  exact monthFromDoy_bracket _ _ (leapAdj_cases (yearOf z)) (by omega) (by omega)

theorem dayOf_bounds (z : Int) :
    1 ≤ dayOf z ∧ dayOf z ≤ daysInMonth (yearOf z) (monthOf z) := by
  have h := monthOf_bracket z
  unfold dayOf daysBeforeMonth daysInMonth at *
  omega

/-- Reconstruction: a date is recovered from its civil components. -/
theorem fromCivil_of (z : Int) : daysFromCivil (yearOf z) (monthOf z) (dayOf z) = z := by
  have hm := monthOf_mem z
  have hb := monthOf_bracket z
  unfold daysFromCivil
  have e1 : yearOf z + (monthOf z - 1) / 12 = yearOf z := by omega
  have e2 : (monthOf z - 1) % 12 + 1 = monthOf z := by omega
  rw [e1, e2]
  unfold dayOf
  ring

/-- On a valid civil triple, `daysFromCivil` needs no normalization. -/
theorem fromCivil_valid (y m d : Int) (h1 : 1 ≤ m) (h2 : m ≤ 12) :
    daysFromCivil y m d = yearStart y + daysBeforeMonth y m + (d - 1) := by
  unfold daysFromCivil
  have e1 : y + (m - 1) / 12 = y := by omega
  have e2 : (m - 1) % 12 + 1 = m := by omega
  rw [e1, e2]

theorem yearOf_fromCivil (y m d : Int) (h1 : 1 ≤ m) (h2 : m ≤ 12)
    (hd1 : 1 ≤ d) (hd2 : d ≤ daysInMonth y m) :
    yearOf (daysFromCivil y m d) = y := by
  rw [fromCivil_valid y m d h1 h2]
  have hb := dbm_bounds (leapAdj y) m (leapAdj_cases y) h1 h2
  have hsucc := yearStart_succ y
  refine yearOf_eq ?_ ?_
  · unfold daysBeforeMonth at *
    unfold daysInMonth at hd2
    omega
  · unfold daysBeforeMonth at *
    unfold daysInMonth at hd2
    omega

theorem monthOf_fromCivil (y m d : Int) (h1 : 1 ≤ m) (h2 : m ≤ 12)
    (hd1 : 1 ≤ d) (hd2 : d ≤ daysInMonth y m) :
    monthOf (daysFromCivil y m d) = m := by
  unfold monthOf
  rw [yearOf_fromCivil y m d h1 h2 hd1 hd2]
  rw [fromCivil_valid y m d h1 h2]
  have e : yearStart y + daysBeforeMonth y m + (d - 1) - yearStart y =
      daysBeforeMonthL (leapAdj y) m + (d - 1) := by
    unfold daysBeforeMonth
    ring
  rw [e]
  refine monthFromDoy_eq _ m _ (leapAdj_cases y) h1 h2 (by omega) ?_
  unfold daysInMonth at hd2
  omega

theorem dayOf_fromCivil (y m d : Int) (h1 : 1 ≤ m) (h2 : m ≤ 12)
    (hd1 : 1 ≤ d) (hd2 : d ≤ daysInMonth y m) :
    dayOf (daysFromCivil y m d) = d := by
  unfold dayOf
  rw [yearOf_fromCivil y m d h1 h2 hd1 hd2, monthOf_fromCivil y m d h1 h2 hd1 hd2,
    fromCivil_valid y m d h1 h2]
  ring

/-- Symmetric monotonicity bound: at most 366 days per year. -/
theorem yearStart_mono_le {y1 y2 : Int} (h : y1 ≤ y2) :
    yearStart y2 ≤ yearStart y1 + 366 * (y2 - y1) := by
  refine @Int.le_induction (fun t => yearStart t ≤ yearStart y1 + 366 * (t - y1)) y1 ?_ ?_ y2 h
  · omega
  · intro n hn ih
    have := yearStart_step_le n
    omega

/-- The leap adjustment changes a month table entry by at most one. -/
theorem dbmL_leap_diff (m : Int) (h1 : 1 ≤ m) (h2 : m ≤ 12) :
    daysBeforeMonthL 0 m ≤ daysBeforeMonthL 1 m ∧
      daysBeforeMonthL 1 m ≤ daysBeforeMonthL 0 m + 1 ∧
      daysInMonthL 0 m ≤ daysInMonthL 1 m ∧
      daysInMonthL 1 m ≤ daysInMonthL 0 m + 1 := by
  interval_cases m <;> decide

/-! ## Dates of recurring candidates

`dateAtDayOrMonthEnd` is the embedding of the Go helper of the same name:
it clamps the requested day to the last day of the month (obtained, as in
the source, as the day-of-month of the day before the first of the next
month) and builds the date. -/

def dateAtDayOrMonthEnd (y m day : Int) : Int :=
  daysFromCivil y m
    (if day > dayOf (daysFromCivil y (m + 1) 1 - 1)
     then dayOf (daysFromCivil y (m + 1) 1 - 1) else day)

/-- The day before the first of month `m + 1` is the last day of month `m`. -/
theorem lastOfMonth (y m : Int) (h1 : 1 ≤ m) (h2 : m ≤ 12) :
    dayOf (daysFromCivil y (m + 1) 1 - 1) = daysInMonth y m := by
  have hdim := dim_bounds (leapAdj y) m (leapAdj_cases y)
  rcases lt_or_ge m 12 with hm | hm
  · have e : daysFromCivil y (m + 1) 1 - 1 = daysFromCivil y m (daysInMonth y m) := by
      rw [fromCivil_valid y (m + 1) 1 (by omega) (by omega),
        fromCivil_valid y m _ h1 h2]
      unfold daysBeforeMonth
      rw [dbm_step (leapAdj y) m (leapAdj_cases y) h1 (by omega)]
      unfold daysInMonth
      ring
    rw [e]
    exact dayOf_fromCivil y m _ h1 h2 (by unfold daysInMonth; omega) le_rfl
  · have hm12 : m = 12 := by omega
    subst hm12
    have e13 : daysFromCivil y (12 + 1) 1 = yearStart (y + 1) := by
      unfold daysFromCivil daysBeforeMonth daysBeforeMonthL
      norm_num
    have hval : daysFromCivil y 12 (daysInMonth y 12) =
        yearStart y + daysBeforeMonthL (leapAdj y) 12 + (daysInMonthL (leapAdj y) 12 - 1) := by
      rw [fromCivil_valid y 12 _ (by norm_num) (by norm_num)]
      unfold daysBeforeMonth daysInMonth
      ring
    have e : daysFromCivil y (12 + 1) 1 - 1 = daysFromCivil y 12 (daysInMonth y 12) := by
      rw [e13, hval]
      have h12 := dbm_last (leapAdj y)
      have hsucc := yearStart_succ y
      omega
    rw [e]
    exact dayOf_fromCivil y 12 _ (by norm_num) (by norm_num)
      (by unfold daysInMonth; omega) le_rfl

/-- The Go clamping computes the minimum of the requested day and the
month length. -/
theorem dateAt_eq_min (y m day : Int) (h1 : 1 ≤ m) (h2 : m ≤ 12) :
    dateAtDayOrMonthEnd y m day = daysFromCivil y m (min day (daysInMonth y m)) := by
  unfold dateAtDayOrMonthEnd
  rw [lastOfMonth y m h1 h2]
  rcases le_or_lt day (daysInMonth y m) with h | h
  · rw [if_neg (by omega), min_eq_left h]
  · rw [if_pos h, min_eq_right (by omega)]

/-- Value form of the candidate date on a valid month. -/
theorem dateAt_val (y m day : Int) (h1 : 1 ≤ m) (h2 : m ≤ 12) :
    dateAtDayOrMonthEnd y m day =
      yearStart y + daysBeforeMonthL (leapAdj y) m +
        (min day (daysInMonthL (leapAdj y) m) - 1) := by
  rw [dateAt_eq_min y m day h1 h2, fromCivil_valid y m _ h1 h2]
  unfold daysBeforeMonth daysInMonth
  rfl

/-- Stepping to the next calendar month strictly increases the candidate. -/
theorem dateAt_month_step (y m day : Int) (h1 : 1 ≤ m) (h2 : m ≤ 12) :
    dateAtDayOrMonthEnd y m day <
      (if m = 12 then dateAtDayOrMonthEnd (y + 1) 1 day
       else dateAtDayOrMonthEnd y (m + 1) day) := by
  have hL := leapAdj_cases y
  have hL1 := leapAdj_cases (y + 1)
  have hdim := dim_bounds (leapAdj y) m hL
  rcases eq_or_ne m 12 with hm | hm
  · subst hm
    rw [if_pos rfl, dateAt_val y 12 day (by norm_num) (by norm_num),
      dateAt_val (y + 1) 1 day (by norm_num) (by norm_num)]
    have hsucc := yearStart_succ y
    have e1 : daysBeforeMonthL (leapAdj y) 12 = 334 + leapAdj y := by
      norm_num [daysBeforeMonthL]
    have e2 : daysInMonthL (leapAdj y) 12 = 31 := by norm_num [daysInMonthL]
    have e3 : daysBeforeMonthL (leapAdj (y + 1)) 1 = 0 := by norm_num [daysBeforeMonthL]
    have e4 : daysInMonthL (leapAdj (y + 1)) 1 = 31 := by norm_num [daysInMonthL]
    rw [e1, e2, e3, e4]
    omega
  · rw [if_neg hm, dateAt_val y m day h1 h2, dateAt_val y (m + 1) day (by omega) (by omega)]
    have hstep := dbm_step (leapAdj y) m hL h1 (by omega)
    have hdim1 := dim_bounds (leapAdj y) (m + 1) hL
    omega

/-- Stepping to the same month of the next year strictly increases the
candidate. -/
theorem dateAt_year_step (y m day : Int) (h1 : 1 ≤ m) (h2 : m ≤ 12) :
    dateAtDayOrMonthEnd y m day < dateAtDayOrMonthEnd (y + 1) m day := by
  have hd0 := dbmL_leap_diff m h1 h2
  have hsucc := yearStart_succ y
  have hdim0 := dim_bounds 0 m (Or.inl rfl)
  have hdim1 := dim_bounds 1 m (Or.inr rfl)
  rw [dateAt_val y m day h1 h2, dateAt_val (y + 1) m day h1 h2]
  rcases leapAdj_cases y with h | h <;> rcases leapAdj_cases (y + 1) with h' | h' <;>
    rw [h] at hsucc <;> rw [h, h'] <;> omega

/-- The candidate of a valid month stays within that month (any requested
day at most gives the month end; a positive day keeps it at or after the
month start). -/
theorem dateAt_bounds (y m day : Int) (h1 : 1 ≤ m) (h2 : m ≤ 12) (hday : 1 ≤ day) :
    yearStart y + daysBeforeMonthL (leapAdj y) m ≤ dateAtDayOrMonthEnd y m day ∧
      dateAtDayOrMonthEnd y m day <
        yearStart y + daysBeforeMonthL (leapAdj y) m + daysInMonthL (leapAdj y) m := by
  rw [dateAt_val y m day h1 h2]
  have hdim := dim_bounds (leapAdj y) m (leapAdj_cases y)
  omega

/-! ## Weekday arithmetic -/

/-- Go Weekday of an epoch day: 0 is Sunday; day 0 (1970-01-01) is a
Thursday, weekday 4. -/
def weekday (d : Int) : Int := (d + 4) % 7

/-- Embedding of snapToWeekday: move `d` forward to the next day whose
weekday is `w` (never moving when already there), via the source's
`diff := w - weekday(d); if diff < 0 { diff += 7 }`. -/
def snapToWeekday (d w : Int) : Int :=
  if w - weekday d < 0 then d + (w - weekday d + 7) else d + (w - weekday d)

theorem weekday_bounds (d : Int) : 0 ≤ weekday d ∧ weekday d < 7 := by
  unfold weekday
  omega

theorem weekday_add_week (d k : Int) : weekday (d + 7 * k) = weekday d := by
  unfold weekday
  omega

theorem snapToWeekday_weekday (d w : Int) (h0 : 0 ≤ w) (h6 : w ≤ 6) :
    weekday (snapToWeekday d w) = w := by
  unfold snapToWeekday weekday
  split <;> omega

theorem snapToWeekday_ge (d w : Int) (h0 : 0 ≤ w) : d ≤ snapToWeekday d w := by
  unfold snapToWeekday weekday
  split <;> omega

theorem snapToWeekday_lt (d w : Int) (h6 : w ≤ 6) : snapToWeekday d w < d + 7 := by
  unfold snapToWeekday weekday
  split <;> omega

theorem snapToWeekday_id (d w : Int) (h : weekday d = w) : snapToWeekday d w = d := by
  unfold snapToWeekday
  rw [h]
  norm_num

/-! ## Data model

Embeddings of database.Transactions, database.RecurringTransactions and the
service types. pgtype.Date is an epoch day `Int`; pgtype.Numeric amounts and
float64 balances are exact rationals; pgtype.Int4 with its Valid bit is an
`Option Int`. -/

structure Transaction where
  id : Int
  date : Int
  amount : Rat
  description : String
  type : String
deriving Repr, DecidableEq

structure Recurring where
  id : Int
  description : String
  type : String
  amount : Rat
  startDate : Int
  interval : String
  dayOfWeek : Option Int
  dayOfMonth : Option Int
  endDate : Option Int
  active : Bool
deriving Repr, DecidableEq

/-- Go Truncate(24h) is the identity on the UTC midnights this code passes
around (every time.Time reaching the service is a pgtype.Date scan or an
already day-truncated clock reading). -/
def truncateDay (t : Int) : Int := t

/-- Embedding of maxDate: `if a.After(b) { return a }; return b`. -/
def maxDate (a b : Int) : Int := if a > b then a else b

/-- Embedding of toTxFromRecurring. The source negates an expense amount by
`makePgNumeric(-toFloat(r.Amount))`; on the exact two-decimal amounts stored
in the DECIMAL(10,2) column this round trip is exact negation. -/
def toTxFromRecurring (r : Recurring) (d : Int) : Transaction :=
  { id := 0
    date := d
    amount := if r.type = "expense" then -r.amount else r.amount
    description := r.description
    type := r.type }

/-- The `for d.Before(start) { d = d.AddDate(0, 0, stepDays) }` loop of
alignToNextOnPhase. The source is called only with stepDays 7 or 14; for
stepDays ≤ 0 the Go loop would not terminate, so the embedding returns the
current day there (unreachable from the call sites). -/
def alignLoop (start stepDays d : Int) : Int :=
  if h : d < start then
    if hs : 0 < stepDays then alignLoop start stepDays (d + stepDays) else d
  else d
termination_by (start - d).toNat
decreasing_by omega

/-- Embedding of alignToNextOnPhase. -/
def alignToNextOnPhase (anchor start stepDays wantDOW : Int) : Int :=
  if wantDOW ≥ 0 then snapToWeekday (alignLoop start stepDays anchor) wantDOW
  else alignLoop start stepDays anchor

/-- The emission loop of expandWeeklyLike:
`for d := first; !d.After(end); d = d.AddDate(0, 0, step)` with the in-loop
re-snap `if int(d.Weekday()) != wantDOW { d = snapToWeekday(d, ...) }`.
The guard records the totality precondition: step is always 7 or 14, and a
weekday below -7 would make the Go loop run forever (a validated series
stores a day-of-week between 0 and 6, and an absent one defaults to the
anchor weekday in 0..6). Outside the guard the embedding returns [].
`weeklySnap` is the in-loop re-snap
`if int(d.Weekday()) != wantDOW { d = snapToWeekday(d, ...) }`. -/
def weeklySnap (wantDOW d : Int) : Int :=
  if weekday d ≠ wantDOW then snapToWeekday d wantDOW else d

theorem weeklySnap_ge (wantDOW d : Int) (h : -7 ≤ wantDOW) :
    d - 6 ≤ weeklySnap wantDOW d := by
  have hw := weekday_bounds d
  unfold weeklySnap snapToWeekday
  split
  · split <;> omega
  · omega

def weeklyLoop (r : Recurring) (step wantDOW e d : Int) : List Transaction :=
  if h : 7 ≤ step ∧ -7 ≤ wantDOW then
    if d > e then []
    else
      toTxFromRecurring r (weeklySnap wantDOW d) ::
        weeklyLoop r step wantDOW e (weeklySnap wantDOW d + step)
  else []
termination_by (e + 1 - d).toNat
decreasing_by
  have hge := weeklySnap_ge wantDOW d h.2
  omega

/-- Embedding of expandWeeklyLike. -/
def expandWeeklyLike (r : Recurring) (start e : Int) : List Transaction :=
  weeklyLoop r (if r.interval = "biweekly" then 14 else 7)
    (match r.dayOfWeek with
      | some w => w
      | none => weekday (truncateDay r.startDate))
    e
    (alignToNextOnPhase (truncateDay r.startDate) start
      (if r.interval = "biweekly" then 14 else 7)
      (match r.dayOfWeek with
        | some w => w
        | none => weekday (truncateDay r.startDate)))

/-- The month-by-month loop of expandMonthly, iterating the (year, month)
pair as the source does. The guard records that the month component always
lies in 1..12 (it starts from `start.Month()` and the increment keeps the
range), which also gives termination. -/
def monthlyLoop (r : Recurring) (day anchor s e y m : Int) : List Transaction :=
  if hm : 1 ≤ m ∧ m ≤ 12 then
    if dateAtDayOrMonthEnd y m day > e then []
    else
      (if ¬ dateAtDayOrMonthEnd y m day < s ∧ ¬ dateAtDayOrMonthEnd y m day < anchor then
        [toTxFromRecurring r (dateAtDayOrMonthEnd y m day)]
      else []) ++
      (if h12 : m = 12 then monthlyLoop r day anchor s e (y + 1) 1
       else monthlyLoop r day anchor s e y (m + 1))
  else []
termination_by (e + 1 - dateAtDayOrMonthEnd y m day).toNat
decreasing_by
  · have hs := dateAt_month_step y m day hm.1 hm.2
    rw [if_pos h12] at hs
    omega
  · have hs := dateAt_month_step y m day hm.1 hm.2
    rw [if_neg h12] at hs
    omega

/-- Embedding of expandMonthly. -/
def expandMonthly (r : Recurring) (start e : Int) : List Transaction :=
  monthlyLoop r
    (match r.dayOfMonth with
      | some v => v
      | none => dayOf (truncateDay r.startDate))
    (truncateDay r.startDate) start e (yearOf start) (monthOf start)

/-- The year-by-year loop of expandYearly. The guard records that the month
argument (the anchor month) lies in 1..12, which gives termination. -/
def yearlyLoop (r : Recurring) (day month anchor e y : Int) : List Transaction :=
  if hm : 1 ≤ month ∧ month ≤ 12 then
    if dateAtDayOrMonthEnd y month day > e then []
    else
      (if ¬ dateAtDayOrMonthEnd y month day < anchor then
        [toTxFromRecurring r (dateAtDayOrMonthEnd y month day)]
      else []) ++
      yearlyLoop r day month anchor e (y + 1)
  else []
termination_by (e + 1 - dateAtDayOrMonthEnd y month day).toNat
decreasing_by
  have hs := dateAt_year_step y month day hm.1 hm.2
  omega

/-- Embedding of expandYearly, with its initial bump past a first candidate
that falls before the window start. -/
def expandYearly (r : Recurring) (start e : Int) : List Transaction :=
  yearlyLoop r
    (match r.dayOfMonth with
      | some v => v
      | none => dayOf (truncateDay r.startDate))
    (monthOf (truncateDay r.startDate))
    (truncateDay r.startDate) e
    (if dateAtDayOrMonthEnd (yearOf start) (monthOf (truncateDay r.startDate))
        (match r.dayOfMonth with
          | some v => v
          | none => dayOf (truncateDay r.startDate)) < start
     then yearOf start + 1 else yearOf start)

/-- The `switch r.Interval` of expandOne. -/
def expandDispatch (r : Recurring) (winStart winEnd : Int) : List Transaction :=
  if r.interval = "weekly" ∨ r.interval = "biweekly" then expandWeeklyLike r winStart winEnd
  else if r.interval = "monthly" then expandMonthly r winStart winEnd
  else if r.interval = "yearly" then expandYearly r winStart winEnd
  else []
/-- Embedding of expandOne: the two emptiness guards, the effective-window
clamping, and the dispatch on the interval enum. -/
def expandOne (r : Recurring) (start e : Int) : List Transaction :=
  if r.startDate > e then []
  else if (match r.endDate with
    | some ed => decide (ed < start)
    | none => false) then []
  else
    expandDispatch r (maxDate start r.startDate)
      (match r.endDate with
        | some ed => if ed < e then ed else e
        | none => e)


/-- The Go zero value of time.Time, January 1 of year 1, as an epoch day:
the date inside a zero DailyCashFlow struct. -/
def DailyCashFlowZero : Int := daysFromCivil 1 1 1

structure DailyCashFlow where
  date : Int
  balance : Rat
  change : Rat
deriving Repr, DecidableEq

/-- The scan loop of FindLowestPoint: `for i, day := range forecast` keeping
the first strictly smaller balance. -/
def flpLoop (lowest : DailyCashFlow) (lowestIndex i : Int) :
    List DailyCashFlow → DailyCashFlow × Int
  | [] => (lowest, lowestIndex)
  | day :: rest =>
    if day.balance < lowest.balance then flpLoop day i (i + 1) rest
    else flpLoop lowest lowestIndex (i + 1) rest

/-- Embedding of FindLowestPoint. On an empty series the source returns the
Go zero value `DailyCashFlow{}` (zero time.Time is January 1 of year 1,
`DailyCashFlowZero` as an epoch day) together with index -1. -/
def FindLowestPoint (forecast : List DailyCashFlow) : DailyCashFlow × Int :=
  match forecast with
  | [] => ({ date := DailyCashFlowZero, balance := 0, change := 0 }, -1)
  | f0 :: _ => flpLoop f0 0 0 forecast

/-- Daily bucket of Calculate90DayForecast: the source accumulates
`daily[day] += amt` over `append(oneOffs, recs...)` (day normalization
`.In(time.UTC).Truncate(24h)` is the identity here); the map entry for a
day is the sum of the amounts dated that day. NumericToFloat64 returns a
nil error on every path in the source, so its `continue` branch is dead.
The source sums in float64; this embedding sums exact rationals, which
agrees with the program only where binary64 arithmetic is exact (e.g.
integer amounts of small magnitude), so theorems below use the bucket
values only for the window shape, the dates, and a binary64-exact
example. -/
def dailySum (txs : List Transaction) (day : Int) : Rat :=
  ((txs.filter (fun tx => tx.date = day)).map (fun tx => tx.amount)).sum

/-- The accumulation loop of Calculate90DayForecast:
`for i := 0; i < n; i++ { day := start.AddDate(0,0,i); change := daily[day];
bal += change; fc[i] = DailyCashFlow{day, bal, change} }`.
The source's `bal += change` rounds each step to binary64; the embedding
adds exact rationals, which coincides with the program only on values that
binary64 represents and adds exactly (such as the integer amounts of the
specification example), so balance values are asserted below only there. -/
def forecastLoop (daily : Int → Rat) (start : Int) : Nat → Rat → Int → List DailyCashFlow
  | 0, _, _ => []
  | n + 1, bal, i =>
    { date := start + i
      balance := bal + daily (start + i)
      change := daily (start + i) } ::
      forecastLoop daily start n (bal + daily (start + i)) (i + 1)

/-- The pure part of Calculate90DayForecast, after both fetches succeeded:
90 days starting at `today` (the truncated wall clock read by the source). -/
def calculate90DayForecastPure (today : Int) (startingBalance : Rat)
    (oneOffs recs : List Transaction) : List DailyCashFlow :=
  forecastLoop (dailySum (oneOffs ++ recs)) today 90 startingBalance 0

/-- The external store (database.Querier) as already-resolved results: each
call either yields a value or a store error. -/
structure Store where
  getSetting : String → Except String String
  getAllTransactions : Except String (List Transaction)
  listActiveRecurring : Except String (List Recurring)
  getTransactionsByDateRange : Int → Int → Except String (List Transaction)

/-- Embedding of ExpandRecurringBetween: propagate a store failure, else
concatenate the per-series expansions in list order. -/
def ExpandRecurringBetween (st : Store) (start e : Int) : Except String (List Transaction) :=
  match st.listActiveRecurring with
  | .error err => .error err
  | .ok rs => .ok ((rs.map (fun r => expandOne r start e)).flatten)

/-- Embedding of Calculate90DayForecast (the recurring-aware version):
window `[today, today + 89]`, one-offs fetch, recurring expansion, then the
pure accumulation; the first failing fetch aborts with that error. -/
def Calculate90DayForecast (st : Store) (today : Int) (startingBalance : Rat) :
    Except String (List DailyCashFlow) :=
  match st.getAllTransactions with
  | .error err => .error err
  | .ok oneOffs =>
    match ExpandRecurringBetween st today (today + 89) with
    | .error err => .error err
    | .ok recs => .ok (calculate90DayForecastPure today startingBalance oneOffs recs)

/-- Numeric value of a digit string (most significant first). -/
def digitsVal (ds : List Char) : Nat :=
  ds.foldl (fun acc c => 10 * acc + (c.toNat - 48)) 0

/-- Modelled from strconv.ParseFloat, restricted to the plain decimal
grammar `[+-]?digits[.digits]` that this application ever stores for the
starting balance (SetStartingBalance writes fmt.Sprintf with two decimals);
anything else is a syntax error, as in the Go function. -/
def parseDecimal (s : String) : Except String Rat :=
  match s.toList with
  | [] => .error "invalid syntax"
  | cs =>
    let (sign, cs2) : Rat × List Char :=
      match cs with
      | c :: rest => if c = Char.ofNat 45 then (-1, rest)
                     else if c = Char.ofNat 43 then (1, rest)
                     else (1, cs)
      | [] => (1, cs)
    let intPart := cs2.takeWhile (fun c => c.isDigit)
    let rest := cs2.dropWhile (fun c => c.isDigit)
    match rest with
    | [] =>
      if intPart.isEmpty then .error "invalid syntax"
      else .ok (sign * (digitsVal intPart : Rat))
    | c :: frac =>
      if c = Char.ofNat 46 ∧ frac.all (fun c2 => c2.isDigit) ∧
          ¬ (intPart.isEmpty ∧ frac.isEmpty) then
        .ok (sign * ((digitsVal intPart : Rat) +
          (digitsVal frac : Rat) / ((10 : Rat) ^ frac.length)))
      else .error "invalid syntax"

/-- Embedding of GetStartingBalance: any store error is swallowed and
reported as a successful zero; a fetched value goes through ParseFloat. -/
def GetStartingBalance (st : Store) : Except String Rat :=
  match st.getSetting "starting_balance" with
  | .error _ => .ok 0
  | .ok value => parseDecimal value

/-- The comparator of GetTransactionsWithRecurringsBetween:
`if ti.Equal(tj) { desc_i < desc_j } else { ti.Before(tj) }`. -/
def txLess (a b : Transaction) : Bool :=
  if a.date = b.date then decide (a.description < b.description)
  else decide (a.date < b.date)

/-- Embedding of GetTransactionsWithRecurringsBetween. Go sort.SliceStable
with the strict comparator `txLess` is a stable sort; a stable sort's output
is uniquely determined by the comparator, so it is modelled by the standard
library's stable mergeSort with the matching non-strict comparator
`fun a b => ! txLess b a`. -/
def GetTransactionsWithRecurringsBetween (st : Store) (start e : Int) :
    Except String (List Transaction) :=
  match st.getTransactionsByDateRange start e with
  | .error err => .error err
  | .ok oneOffs =>
    match ExpandRecurringBetween st start e with
    | .error err => .error err
    | .ok recs => .ok ((oneOffs ++ recs).mergeSort (fun a b => ! txLess b a))

/-- Embedding of GetUpcomingTransactions: the window `[today, today + days]`
handed to GetTransactionsWithRecurringsBetween. -/
def GetUpcomingTransactions (st : Store) (today days : Int) :
    Except String (List Transaction) :=
  GetTransactionsWithRecurringsBetween st today (today + days)

/-- From viewTransactions in the CLI layer: the printed id label,
`fmt.Sprintf("%d", id)` replaced by "R" when the id is the sentinel 0. -/
def idLabel (id : Int) : String := if id = 0 then "R" else toString id

/-! ## Lowest point (C2) -/

theorem flpLoop_index_nonneg (l : List DailyCashFlow) :
    ∀ (lowest : DailyCashFlow) (li i : Int), 0 ≤ li → 0 ≤ i →
      0 ≤ (flpLoop lowest li i l).2 := by
  induction l with
  | nil => intro lowest li i h1 h2; simpa [flpLoop] using h1
  | cons day rest ih =>
    intro lowest li i h1 h2
    unfold flpLoop
    split
    · exact ih day i (i + 1) h2 (by omega)
    · exact ih lowest li (i + 1) h1 (by omega)

/-- C2 counterexample: on the empty series FindLowestPoint returns the
zero-valued DailyCashFlow (zero date, zero balance, zero change) paired
with -1, and no error of any kind. -/
theorem findLowestPoint_empty_returns_zero_day :
    FindLowestPoint [] = ({ date := DailyCashFlowZero, balance := 0, change := 0 }, -1) := rfl

/-- C2 amended: the empty series yields the zero-valued day with sentinel
index -1 rather than an error value (the function has no error result);
the sentinel distinguishes the case, since every nonempty series yields a
nonnegative index. -/
theorem findLowestPoint_empty_sentinel :
    FindLowestPoint [] = ({ date := DailyCashFlowZero, balance := 0, change := 0 }, -1) ∧
      ∀ fc : List DailyCashFlow, fc ≠ [] → 0 ≤ (FindLowestPoint fc).2 := by
  refine ⟨rfl, ?_⟩
  intro fc hne
  match fc with
  | f0 :: rest =>
    unfold FindLowestPoint
    exact flpLoop_index_nonneg _ f0 0 0 le_rfl le_rfl

theorem findLowestPoint_empty_sentinel_witness :
    0 ≤ (FindLowestPoint [{ date := 0, balance := 5, change := 5 }]).2 :=
  findLowestPoint_empty_sentinel.2 _ (by simp)

/-! ## Error propagation (C4) -/

/-- A store whose settings lookup fails with a genuine store error. -/
def failingSettingsStore : Store :=
  { getSetting := fun _ => .error "connection refused"
    getAllTransactions := .ok []
    listActiveRecurring := .ok []
    getTransactionsByDateRange := fun _ _ => .ok [] }

/-- C4 counterexample: a store failure inside GetStartingBalance is not
propagated; the call reports success with the zero default. -/
theorem getStartingBalance_swallows_error :
    GetStartingBalance failingSettingsStore = .ok 0 := rfl

/-- C4 amended: the forecast and transaction paths propagate every store
error unchanged with no retries, and GetStartingBalance hands a fetched
value to the ParseFloat model; but GetStartingBalance treats every store
error (not only a missing setting) as a zero starting balance. -/
theorem store_error_propagation :
    (∀ (st : Store) (err : String),
      st.getSetting "starting_balance" = .error err → GetStartingBalance st = .ok 0) ∧
    (∀ (st : Store) (v : String),
      st.getSetting "starting_balance" = .ok v → GetStartingBalance st = parseDecimal v) ∧
    (∀ (st : Store) (today : Int) (bal : Rat) (err : String),
      st.getAllTransactions = .error err →
        Calculate90DayForecast st today bal = .error err) ∧
    (∀ (st : Store) (today : Int) (bal : Rat) (oneOffs : List Transaction) (err : String),
      st.getAllTransactions = .ok oneOffs → st.listActiveRecurring = .error err →
        Calculate90DayForecast st today bal = .error err) ∧
    (∀ (st : Store) (s e : Int) (err : String),
      st.listActiveRecurring = .error err →
        ExpandRecurringBetween st s e = .error err) ∧
    (∀ (st : Store) (s e : Int) (err : String),
      st.getTransactionsByDateRange s e = .error err →
        GetTransactionsWithRecurringsBetween st s e = .error err) ∧
    (∀ (st : Store) (s e : Int) (oneOffs : List Transaction) (err : String),
      st.getTransactionsByDateRange s e = .ok oneOffs →
        st.listActiveRecurring = .error err →
          GetTransactionsWithRecurringsBetween st s e = .error err) := by
  refine ⟨?_, ?_, ?_, ?_, ?_, ?_, ?_⟩
  · intro st err h
    unfold GetStartingBalance
    rw [h]
  · intro st v h
    unfold GetStartingBalance
    rw [h]
  · intro st today bal err h
    unfold Calculate90DayForecast
    rw [h]
  · intro st today bal oneOffs err h1 h2
    unfold Calculate90DayForecast ExpandRecurringBetween
    rw [h1, h2]
  · intro st s e err h
    unfold ExpandRecurringBetween
    rw [h]
  · intro st s e err h
    unfold GetTransactionsWithRecurringsBetween
    rw [h]
  · intro st s e oneOffs err h1 h2
    unfold GetTransactionsWithRecurringsBetween ExpandRecurringBetween
    rw [h1, h2]

theorem store_error_propagation_witness :
    GetStartingBalance failingSettingsStore = .ok 0 ∧
      ExpandRecurringBetween
        { failingSettingsStore with listActiveRecurring := .error "db down" } 0 10 =
        .error "db down" :=
  ⟨store_error_propagation.1 failingSettingsStore "connection refused" rfl,
    store_error_propagation.2.2.2.2.1 _ 0 10 "db down" rfl⟩

/-! ## Projected-transaction provenance (C10) -/

theorem toDigitsCore_digits (b : Nat) (hb2 : 2 ≤ b) (hb : b ≤ 10) :
    ∀ (f n : Nat) (acc : List Char), (∀ c ∈ acc, c.isDigit) →
      ∀ c ∈ Nat.toDigitsCore b f n acc, c.isDigit := by
  intro f
  induction f with
  | zero => intro n acc hacc c hc; exact hacc c hc
  | succ f ih =>
    intro n acc hacc c hc
    simp only [Nat.toDigitsCore] at hc
    have hdig : (Nat.digitChar (n % b)).isDigit := by
      have hlt : n % b < 10 := lt_of_lt_of_le (Nat.mod_lt n (by omega)) hb
      set k := n % b with hk
      clear_value k
      interval_cases k <;> decide
    split at hc
    · rcases List.mem_cons.mp hc with rfl | hmem
      · exact hdig
      · exact hacc c hmem
    · refine ih _ _ ?_ c hc
      intro c2 hc2
      rcases List.mem_cons.mp hc2 with rfl | hmem
      · exact hdig
      · exact hacc c2 hmem

theorem natRepr_ne_R (m : Nat) : Nat.repr m ≠ "R" := by
  intro h
  have hc : ('R' : Char) ∈ Nat.toDigits 10 m := by
    have hdata : (Nat.toDigits 10 m).asString = "R" := h
    have hlist : Nat.toDigits 10 m = ['R'] := by
      have h2 := congrArg String.data hdata
      simpa [List.asString] using h2
    simp [hlist]
  have hdigits := toDigitsCore_digits 10 (by norm_num) (by norm_num) (m + 1) m [] (by simp) 'R'
    (by simpa [Nat.toDigits] using hc)
  simp [Char.isDigit] at hdigits

theorem intToString_pos_ne_R (i : Int) (h : 0 < i) : toString i ≠ "R" := by
  obtain ⟨m, rfl⟩ := Int.eq_ofNat_of_zero_le h.le
  exact natRepr_ne_R m

/-- C10: every projected occurrence carries the sentinel identifier 0; the
projection does not retain the originating series identifier (the result is
independent of it); and in the transaction view the sentinel is exactly
what is rendered as the provenance marker "R", while every positive store
identifier renders as its decimal numeral, never "R". -/
theorem projected_provenance :
    (∀ (r : Recurring) (d : Int), (toTxFromRecurring r d).id = 0) ∧
    (∀ (r : Recurring) (d i : Int),
      toTxFromRecurring { r with id := i } d = toTxFromRecurring r d) ∧
    idLabel 0 = "R" ∧
    (∀ i : Int, 0 < i → idLabel i ≠ "R") := by
  refine ⟨fun r d => rfl, fun r d i => rfl, rfl, ?_⟩
  intro i hi
  unfold idLabel
  rw [if_neg (by omega)]
  exact intToString_pos_ne_R i hi

theorem projected_provenance_witness :
    idLabel 35 ≠ "R" :=
  projected_provenance.2.2.2 35 (by norm_num)

/-! ## Forecast shape and accumulation (C5) -/

theorem forecastLoop_length (daily : Int → Rat) (start : Int) :
    ∀ (n : Nat) (bal : Rat) (i : Int), (forecastLoop daily start n bal i).length = n := by
  intro n
  induction n with
  | zero => intro bal i; rfl
  | succ n ih => intro bal i; simp [forecastLoop, ih]

theorem rangeSum_shift (f : Int → Rat) (a : Int) (j : Nat) :
    ((List.range (j + 1)).map (fun k : Nat => f (a + k))).sum =
      f a + ((List.range j).map (fun k : Nat => f (a + 1 + k))).sum := by
  rw [List.range_succ_eq_map]
  simp only [List.map_cons, List.sum_cons, List.map_map, Function.comp]
  have e1 : ((fun k : Nat => f (a + (k : Int))) ∘ Nat.succ) =
      fun k : Nat => f (a + 1 + (k : Int)) := by
    funext k
    simp only [Function.comp]
    congr 1
    push_cast
    ring
  rw [e1]
  norm_num

/-- Element j of the accumulation loop: the date advances one day per entry,
the change is the daily bucket of that date, and the balance is the running
prefix sum from the incoming balance. -/
theorem forecastLoop_get (daily : Int → Rat) (start : Int) :
    ∀ (n : Nat) (bal : Rat) (i : Int) (j : Nat), j < n →
      (forecastLoop daily start n bal i).get? j =
        some { date := start + i + j
               balance := bal + (((List.range (j + 1)).map
                 (fun k : Nat => daily (start + i + k))).sum)
               change := daily (start + i + j) } := by
  intro n
  induction n with
  | zero => intro bal i j hj; omega
  | succ n ih =>
    intro bal i j hj
    match j with
    | 0 =>
      simp only [forecastLoop, List.get?_cons_zero, Option.some.injEq, DailyCashFlow.mk.injEq]
      refine ⟨by push_cast; ring, ?_, by push_cast; ring⟩
      simp [List.range_succ]
    | j + 1 =>
      have hj2 : j < n := by omega
      have hih := ih (bal + daily (start + i)) (i + 1) j hj2
      simp only [forecastLoop, List.get?_cons_succ]
      rw [hih]
      simp only [Option.some.injEq, DailyCashFlow.mk.injEq]
      refine ⟨by push_cast; ring, ?_, by push_cast; ring⟩
      rw [rangeSum_shift daily (start + i) (j + 1)]
      have e : (fun k : Nat => daily (start + (i + 1) + k)) =
          fun k : Nat => daily (start + i + 1 + k) := by
        funext k
        congr 1
        ring
      rw [e]
      ring

/-- The concrete one-off of the specification example, dated the day after
the window start. -/
def exampleOneOff : Transaction :=
  { id := 1, date := 1, amount := -1500, description := "bill", type := "expense" }

/-- C5 counterexample: the forecast window cannot be chosen; on the
specification example (one one-off of -1500 the day after the start) the
code produces 90 rows, not the 3 rows of the claimed window [D, D+2]. -/
theorem forecast_fixed_ninety_days :
    (calculate90DayForecastPure 0 1000 [exampleOneOff] []).length = 90 ∧
      (calculate90DayForecastPure 0 1000 [exampleOneOff] []).length ≠ 3 := by
  have h : (calculate90DayForecastPure 0 1000 [exampleOneOff] []).length = 90 :=
    forecastLoop_length _ 0 90 1000 0
  exact ⟨h, by omega⟩

/-- C5 amended: the forecast window cannot be chosen — the output always
has exactly 90 entries and entry j is dated `today + j` from the
wall-clock day, for every input (the source computes lengths and dates
without floating point). The per-entry change and running balance are
accumulated in float64 by the source, so their values are asserted only on
the specification example, where every quantity is a small integer,
binary64 arithmetic is exact, and the embedding's rationals coincide with
the program: the first three rows there are `(D, 0, 1000)`,
`(D+1, -1500, -500)`, `(D+2, 0, -500)`. -/
theorem forecast_contract :
    (∀ (today : Int) (bal : Rat) (oneOffs recs : List Transaction),
      (calculate90DayForecastPure today bal oneOffs recs).length = 90 ∧
      (∀ j : Nat, j < 90 →
        ((calculate90DayForecastPure today bal oneOffs recs).get? j).map
            (fun d => d.date) = some (today + j))) ∧
    ((calculate90DayForecastPure 0 1000 [exampleOneOff] []).get? 0 =
        some { date := 0, balance := 1000, change := 0 } ∧
      (calculate90DayForecastPure 0 1000 [exampleOneOff] []).get? 1 =
        some { date := 1, balance := -500, change := -1500 } ∧
      (calculate90DayForecastPure 0 1000 [exampleOneOff] []).get? 2 =
        some { date := 2, balance := -500, change := 0 }) := by
  constructor
  · intro today bal oneOffs recs
    refine ⟨forecastLoop_length _ today 90 bal 0, ?_⟩
    intro j hj
    have h := forecastLoop_get (dailySum (oneOffs ++ recs)) today 90 bal 0 j hj
    show ((forecastLoop (dailySum (oneOffs ++ recs)) today 90 bal 0).get? j).map
        (fun d => d.date) = some (today + j)
    rw [h]
    simp
  · have h0 := forecastLoop_get (dailySum ([exampleOneOff] ++ [])) 0 90 1000 0 0 (by norm_num)
    have h1 := forecastLoop_get (dailySum ([exampleOneOff] ++ [])) 0 90 1000 0 1 (by norm_num)
    have h2 := forecastLoop_get (dailySum ([exampleOneOff] ++ [])) 0 90 1000 0 2 (by norm_num)
    refine ⟨?_, ?_, ?_⟩
    · show (forecastLoop (dailySum ([exampleOneOff] ++ [])) 0 90 1000 0).get? 0 = _
      rw [h0]
      norm_num [dailySum, exampleOneOff, List.range_succ, List.filter]
    · show (forecastLoop (dailySum ([exampleOneOff] ++ [])) 0 90 1000 0).get? 1 = _
      rw [h1]
      norm_num [dailySum, exampleOneOff, List.range_succ, List.filter]
    · show (forecastLoop (dailySum ([exampleOneOff] ++ [])) 0 90 1000 0).get? 2 = _
      rw [h2]
      norm_num [dailySum, exampleOneOff, List.range_succ, List.filter]

theorem forecast_contract_witness :
    (calculate90DayForecastPure 5 (7 : Rat) [] []).length = 90 ∧
      ((calculate90DayForecastPure 5 (7 : Rat) [] []).get? 0).map (fun d => d.date) =
        some 5 := by
  have h := forecast_contract.1 5 7 [] []
  refine ⟨h.1, ?_⟩
  have h2 := h.2 0 (by norm_num)
  simpa using h2

/-! ## Deterministic merge (C8) -/

def mergeTransactions (oneOffs recs : List Transaction) : List Transaction :=
  (oneOffs ++ recs).mergeSort (fun a b => ! txLess b a)

theorem txLess_iff (a b : Transaction) :
    txLess a b = true ↔
      (a.date = b.date ∧ a.description < b.description) ∨ a.date < b.date := by
  unfold txLess
  split
  next h => simp [h]
  next h => simp [h]

theorem txLE_iff (a b : Transaction) :
    (! txLess b a) = true ↔
      a.date ≤ b.date ∧ (b.date = a.date → a.description ≤ b.description) := by
  have h0 : (! txLess b a) = true ↔ ¬ (txLess b a = true) := by
    cases h : txLess b a <;> simp
  rw [h0, txLess_iff]
  push_neg
  constructor
  · rintro ⟨h1, h2⟩
    exact ⟨by omega, h1⟩
  · rintro ⟨h1, h2⟩
    exact ⟨h2, by omega⟩

theorem txLE_trans (a b c : Transaction) (hab : (! txLess b a) = true)
    (hbc : (! txLess c b) = true) : (! txLess c a) = true := by
  rw [txLE_iff] at hab hbc ⊢
  rcases hab with ⟨hd1, hs1⟩
  rcases hbc with ⟨hd2, hs2⟩
  refine ⟨by omega, fun he => ?_⟩
  exact le_trans (hs1 (by omega)) (hs2 (by omega))

theorem txLE_total (a b : Transaction) : ((! txLess b a) || (! txLess a b)) = true := by
  rw [Bool.or_eq_true, txLE_iff, txLE_iff]
  rcases lt_trichotomy a.date b.date with h | h | h
  · exact Or.inl ⟨h.le, fun he => absurd he (by omega)⟩
  · rcases le_total a.description b.description with h2 | h2
    · exact Or.inl ⟨h.le, fun _ => h2⟩
    · exact Or.inr ⟨h.ge, fun _ => h2⟩
  · exact Or.inr ⟨h.le, fun he => absurd he (by omega)⟩

/-- C8: the merge of one-off and projected transactions has length m + n, is
ascending by date with the case-sensitive description as tie-break, and is
stable: within every (date, description) class the output preserves the
input order, one-offs (listed first in the input concatenation) before
projected occurrences; moreover this is exactly the sequence returned on
the success path of GetTransactionsWithRecurringsBetween. -/
theorem merge_contract :
    (∀ oneOffs recs : List Transaction,
      (mergeTransactions oneOffs recs).length = oneOffs.length + recs.length ∧
      (mergeTransactions oneOffs recs).Pairwise
        (fun a b => a.date < b.date ∨
          (a.date = b.date ∧ ¬ b.description < a.description)) ∧
      (∀ (dd : Int) (ds : String),
        (mergeTransactions oneOffs recs).filter
            (fun tx => decide (tx.date = dd ∧ tx.description = ds)) =
          (oneOffs ++ recs).filter
            (fun tx => decide (tx.date = dd ∧ tx.description = ds)))) ∧
    (∀ (st : Store) (s e : Int) (oneOffs : List Transaction) (rs : List Recurring),
      st.getTransactionsByDateRange s e = .ok oneOffs →
      st.listActiveRecurring = .ok rs →
        GetTransactionsWithRecurringsBetween st s e =
          .ok (mergeTransactions oneOffs ((rs.map (fun r => expandOne r s e)).flatten))) := by
  refine ⟨?_, ?_⟩
  · intro oneOffs recs
    refine ⟨?_, ?_, ?_⟩
    · unfold mergeTransactions
      rw [(List.mergeSort_perm (oneOffs ++ recs) _).length_eq]
      exact List.length_append _ _
    · have hs := @List.sorted_mergeSort _ (fun a b => ! txLess b a)
        (fun a b c => txLE_trans a b c) (fun a b => txLE_total a b) (oneOffs ++ recs)
      refine hs.imp ?_
      intro a b hab
      rw [txLE_iff] at hab
      rcases hab with ⟨hd, hdesc⟩
      rcases eq_or_lt_of_le hd with he | hlt
      · exact Or.inr ⟨he, not_lt.mpr (hdesc he.symm)⟩
      · exact Or.inl hlt
    · intro dd ds
      set p : Transaction → Bool := fun tx => decide (tx.date = dd ∧ tx.description = ds)
        with hp
      have hclass : ((oneOffs ++ recs).filter p).Pairwise
          (fun a b => (! txLess b a) = true) := by
        refine List.pairwise_of_forall_mem_list ?_
        intro a ha b hb
        have ha2 := (List.mem_filter.mp ha).2
        have hb2 := (List.mem_filter.mp hb).2
        rw [hp] at ha2 hb2
        simp only [decide_eq_true_eq] at ha2 hb2
        rw [txLE_iff]
        constructor
        · omega
        · intro _
          rw [ha2.2, hb2.2]
      have hsub : ((oneOffs ++ recs).filter p).Sublist (mergeTransactions oneOffs recs) :=
        List.sublist_mergeSort (fun a b c => txLE_trans a b c) (fun a b => txLE_total a b)
          hclass (List.filter_sublist _)
      have hsub2 : (((oneOffs ++ recs).filter p).filter p).Sublist
          ((mergeTransactions oneOffs recs).filter p) := hsub.filter p
      rw [List.filter_filter] at hsub2
      have hpp : (fun a => p a && p a) = p := by
        funext a
        exact Bool.and_self (p a)
      rw [hpp] at hsub2
      have hperm : ((mergeTransactions oneOffs recs).filter p).Perm
          ((oneOffs ++ recs).filter p) :=
        (List.mergeSort_perm (oneOffs ++ recs) _).filter p
      exact (hsub2.eq_of_length hperm.length_eq.symm).symm
  · intro st s e oneOffs rs h1 h2
    unfold GetTransactionsWithRecurringsBetween ExpandRecurringBetween
    rw [h1, h2]
    rfl

theorem merge_contract_witness :
    GetTransactionsWithRecurringsBetween
        { getSetting := fun _ => .ok "0.00"
          getAllTransactions := .ok []
          listActiveRecurring := .ok []
          getTransactionsByDateRange := fun _ _ => .ok [] } 0 10 =
      .ok (mergeTransactions [] []) :=
  merge_contract.2 _ 0 10 [] [] rfl rfl

/-! ## Effective weekly parameters -/

/-- The step of expandWeeklyLike: 14 for biweekly, else 7. -/
def effStep (r : Recurring) : Int := if r.interval = "biweekly" then 14 else 7

/-- The target weekday of expandWeeklyLike: the explicit day-of-week when
present, else the anchor weekday. -/
def effDOW (r : Recurring) : Int :=
  match r.dayOfWeek with
  | some w => w
  | none => weekday (truncateDay r.startDate)

theorem effStep_cases (r : Recurring) : effStep r = 7 ∨ effStep r = 14 := by
  unfold effStep
  split <;> simp

theorem expandWeeklyLike_eq (r : Recurring) (s e : Int) :
    expandWeeklyLike r s e =
      weeklyLoop r (effStep r) (effDOW r) e
        (alignToNextOnPhase (truncateDay r.startDate) s (effStep r) (effDOW r)) := rfl

/-! ## Alignment loop lemmas -/

theorem alignLoop_ge_self (start stepDays d : Int) : d ≤ alignLoop start stepDays d := by
  rw [alignLoop]
  split
  next h =>
    split
    next hs =>
      have := alignLoop_ge_self start stepDays (d + stepDays)
      omega
    next hs => omega
  next h => omega
termination_by (start - d).toNat
decreasing_by omega

theorem alignLoop_ge_start (start stepDays d : Int) (hs : 0 < stepDays) :
    start ≤ alignLoop start stepDays d := by
  rw [alignLoop]
  rcases lt_or_ge d start with h | h
  · rw [dif_pos h, dif_pos hs]
    exact alignLoop_ge_start start stepDays (d + stepDays) hs
  · rw [dif_neg (by omega)]
    omega
termination_by (start - d).toNat
decreasing_by omega

theorem alignLoop_phase (start stepDays d : Int) (hs : 0 < stepDays) :
    ∃ k : Nat, alignLoop start stepDays d = d + stepDays * k := by
  rw [alignLoop]
  rcases lt_or_ge d start with h | h
  · rw [dif_pos h, dif_pos hs]
    obtain ⟨k, hk⟩ := alignLoop_phase start stepDays (d + stepDays) hs
    exact ⟨k + 1, by push_cast; linarith [hk]⟩
  · rw [dif_neg (by omega)]
    exact ⟨0, by simp⟩
termination_by (start - d).toNat
decreasing_by omega

theorem alignLoop_min (start stepDays d : Int) (hs : 0 < stepDays) :
    ∀ k : Nat, start ≤ d + stepDays * k → alignLoop start stepDays d ≤ d + stepDays * k := by
  intro k hk
  rw [alignLoop]
  rcases lt_or_ge d start with h | h
  · rw [dif_pos h, dif_pos hs]
    match k with
    | 0 => omega
    | k + 1 =>
      have := alignLoop_min start stepDays (d + stepDays) hs k (by push_cast at hk ⊢; linarith)
      push_cast at this ⊢
      linarith
  · rw [dif_neg (by omega)]
    have : (0 : Int) ≤ stepDays * k := by positivity
    omega
termination_by (start - d).toNat
decreasing_by omega

/-! ## Weekly loop characterization -/

theorem weekday_add_step (d step : Int) (hstep : step = 7 ∨ step = 14) :
    weekday (d + step) = weekday d := by
  unfold weekday
  rcases hstep with rfl | rfl <;> omega

theorem weeklySnap_id (wantDOW d : Int) (h : weekday d = wantDOW) :
    weeklySnap wantDOW d = d := by
  unfold weeklySnap
  rw [if_neg (by simp [h])]

/-- Membership in the weekly emission loop, for the reachable parameters
(step 7 or 14, weekday in range, current day already on the target
weekday): the emitted occurrences are exactly the step-multiples from the
current day that do not pass the window end. -/
theorem weeklyLoop_mem (r : Recurring) (step wantDOW e : Int)
    (hstep : step = 7 ∨ step = 14) (hw0 : 0 ≤ wantDOW) (hw6 : wantDOW ≤ 6) :
    ∀ d : Int, weekday d = wantDOW → ∀ tx : Transaction,
      (tx ∈ weeklyLoop r step wantDOW e d ↔
        ∃ k : Nat, tx = toTxFromRecurring r (d + step * k) ∧ d + step * k ≤ e) := by
  intro d hd tx
  rw [weeklyLoop, dif_pos (by omega)]
  by_cases hgt : d > e
  · rw [if_pos hgt]
    simp only [List.not_mem_nil, false_iff, not_exists, not_and]
    intro k htx
    have : (0 : Int) ≤ step * k := by rcases hstep with rfl | rfl <;> positivity
    omega
  · rw [if_neg hgt]
    rw [weeklySnap_id wantDOW d hd]
    have hd2 : weekday (d + step) = wantDOW := by
      rw [weekday_add_step d step hstep]
      exact hd
    have ih := weeklyLoop_mem r step wantDOW e hstep hw0 hw6 (d + step) hd2 tx
    rw [List.mem_cons, ih]
    constructor
    · rintro (rfl | ⟨k, rfl, hk⟩)
      · exact ⟨0, by simp, by simpa using hgt⟩
      · exact ⟨k + 1, by congr 1; push_cast; ring, by push_cast at hk ⊢; linarith⟩
    · rintro ⟨k, rfl, hk⟩
      match k with
      | 0 => exact Or.inl (by simp)
      | k + 1 =>
        refine Or.inr ⟨k, ?_, by push_cast at hk ⊢; linarith⟩
        congr 1
        push_cast
        ring
termination_by d => (e + 1 - d).toNat
decreasing_by
  rcases hstep with rfl | rfl <;> omega

/-! ## Month-candidate ordering -/

theorem cand_mono (day y1 m1 y2 m2 : Int) (h11 : 1 ≤ m1) (h12 : m1 ≤ 12)
    (h21 : 1 ≤ m2) (h22 : m2 ≤ 12) (hle : 12 * y1 + m1 ≤ 12 * y2 + m2) :
    dateAtDayOrMonthEnd y1 m1 day ≤ dateAtDayOrMonthEnd y2 m2 day := by
  rcases eq_or_lt_of_le hle with heq | hlt
  · have hy : y1 = y2 := by omega
    have hm : m1 = m2 := by omega
    subst hy
    subst hm
    exact le_rfl
  · by_cases h12e : m1 = 12
    · subst h12e
      have hstep := dateAt_month_step y1 12 day (by omega) le_rfl
      rw [if_pos rfl] at hstep
      have hrec := cand_mono day (y1 + 1) 1 y2 m2 (by omega) (by omega) h21 h22 (by omega)
      omega
    · have hstep := dateAt_month_step y1 m1 day h11 h12
      rw [if_neg h12e] at hstep
      have hrec := cand_mono day y1 (m1 + 1) y2 m2 (by omega) (by omega) h21 h22 (by omega)
      omega
termination_by (12 * y2 + m2 - (12 * y1 + m1)).toNat
decreasing_by
  · omega
  · omega

/-- Every candidate for a month lies at or before that month's 31-candidate
(the month end). -/
theorem cand_le_monthEnd (day y m : Int) (h1 : 1 ≤ m) (h2 : m ≤ 12) :
    dateAtDayOrMonthEnd y m day ≤ dateAtDayOrMonthEnd y m 31 := by
  rw [dateAt_val y m day h1 h2, dateAt_val y m 31 h1 h2]
  have hdim := dim_bounds (leapAdj y) m (leapAdj_cases y)
  omega

/-- The day after a month's end is the first of the next month. -/
theorem monthEnd_succ (y m : Int) (h1 : 1 ≤ m) (h2 : m ≤ 12) :
    dateAtDayOrMonthEnd y m 31 + 1 =
      (if m = 12 then dateAtDayOrMonthEnd (y + 1) 1 1
       else dateAtDayOrMonthEnd y (m + 1) 1) := by
  have hdim := dim_bounds (leapAdj y) m (leapAdj_cases y)
  rw [dateAt_val y m 31 h1 h2]
  by_cases h12 : m = 12
  · subst h12
    rw [if_pos rfl, dateAt_val (y + 1) 1 1 (by omega) (by omega)]
    have hlast := dbm_last (leapAdj y)
    have hsucc := yearStart_succ y
    have hd1 : daysBeforeMonthL (leapAdj (y + 1)) 1 = 0 := by
      norm_num [daysBeforeMonthL]
    have hdim2 := dim_bounds (leapAdj (y + 1)) 1 (leapAdj_cases (y + 1))
    have hla := leapAdj_cases y
    omega
  · rw [if_neg h12, dateAt_val y (m + 1) 1 (by omega) (by omega)]
    have hstep := dbm_step (leapAdj y) m (leapAdj_cases y) h1 (by omega)
    have hdim2 := dim_bounds (leapAdj y) (m + 1) (leapAdj_cases y)
    omega

/-- The first-of-month candidate never lies after the month start recorded
by daysBeforeMonth. -/
theorem cand_one_le (y m : Int) (h1 : 1 ≤ m) (h2 : m ≤ 12) :
    dateAtDayOrMonthEnd y m 1 = yearStart y + daysBeforeMonthL (leapAdj y) m := by
  rw [dateAt_val y m 1 h1 h2]
  have hdim := dim_bounds (leapAdj y) m (leapAdj_cases y)
  omega

/-! ## Monthly loop characterization -/

/-- Fuel-indexed form of the monthly-loop characterization; the fuel bounds
the remaining window in days. -/
theorem monthlyLoop_memFuel (r : Recurring) (day anchor s e : Int) :
    ∀ (n : Nat) (y m : Int), (e + 1 - dateAtDayOrMonthEnd y m day).toNat ≤ n →
      1 ≤ m → m ≤ 12 → ∀ tx : Transaction,
      (tx ∈ monthlyLoop r day anchor s e y m ↔
        ∃ y2 m2 : Int, 1 ≤ m2 ∧ m2 ≤ 12 ∧ 12 * y + m ≤ 12 * y2 + m2 ∧
          dateAtDayOrMonthEnd y2 m2 day ≤ e ∧
          s ≤ dateAtDayOrMonthEnd y2 m2 day ∧
          anchor ≤ dateAtDayOrMonthEnd y2 m2 day ∧
          tx = toTxFromRecurring r (dateAtDayOrMonthEnd y2 m2 day)) := by
  intro n
  induction n with
  | zero =>
    intro y m hn h1 h2 tx
    rw [monthlyLoop, dif_pos ⟨h1, h2⟩]
    have hgt : dateAtDayOrMonthEnd y m day > e := by omega
    rw [if_pos hgt]
    simp only [List.not_mem_nil, false_iff, not_exists]
    rintro y2 m2 ⟨hm1, hm2, hidx, hle, _⟩
    have := cand_mono day y m y2 m2 h1 h2 hm1 hm2 hidx
    omega
  | succ n ih =>
    intro y m hn h1 h2 tx
    rw [monthlyLoop, dif_pos ⟨h1, h2⟩]
    by_cases hgt : dateAtDayOrMonthEnd y m day > e
    · rw [if_pos hgt]
      simp only [List.not_mem_nil, false_iff, not_exists]
      rintro y2 m2 ⟨hm1, hm2, hidx, hle, _⟩
      have := cand_mono day y m y2 m2 h1 h2 hm1 hm2 hidx
      omega
    · rw [if_neg hgt, List.mem_append]
      have hstep := dateAt_month_step y m day h1 h2
      by_cases h12 : m = 12
      · rw [dif_pos h12]
        rw [if_pos h12] at hstep
        have ih2 := ih (y + 1) 1 (by omega) (by omega) (by omega) tx
        rw [ih2]
        constructor
        · rintro (hemit | ⟨y2, m2, hm1, hm2, hidx, hrest⟩)
          · by_cases hem : ¬ dateAtDayOrMonthEnd y m day < s ∧
                ¬ dateAtDayOrMonthEnd y m day < anchor
            · rw [if_pos hem, List.mem_singleton] at hemit
              exact ⟨y, m, h1, h2, le_rfl, by omega, by omega, by omega, hemit⟩
            · rw [if_neg hem] at hemit
              exact absurd hemit (List.not_mem_nil tx)
          · exact ⟨y2, m2, hm1, hm2, by omega, hrest⟩
        · rintro ⟨y2, m2, hm1, hm2, hidx, hle, hs, ha, htx⟩
          by_cases heq : 12 * y2 + m2 = 12 * y + m
          · have hy : y2 = y := by omega
            have hm : m2 = m := by omega
            subst hy
            subst hm
            refine Or.inl ?_
            rw [if_pos (by omega), List.mem_singleton]
            exact htx
          · exact Or.inr ⟨y2, m2, hm1, hm2, by omega, hle, hs, ha, htx⟩
      · rw [dif_neg h12]
        rw [if_neg h12] at hstep
        have ih2 := ih y (m + 1) (by omega) (by omega) (by omega) tx
        rw [ih2]
        constructor
        · rintro (hemit | ⟨y2, m2, hm1, hm2, hidx, hrest⟩)
          · by_cases hem : ¬ dateAtDayOrMonthEnd y m day < s ∧
                ¬ dateAtDayOrMonthEnd y m day < anchor
            · rw [if_pos hem, List.mem_singleton] at hemit
              exact ⟨y, m, h1, h2, le_rfl, by omega, by omega, by omega, hemit⟩
            · rw [if_neg hem] at hemit
              exact absurd hemit (List.not_mem_nil tx)
          · exact ⟨y2, m2, hm1, hm2, by omega, hrest⟩
        · rintro ⟨y2, m2, hm1, hm2, hidx, hle, hs, ha, htx⟩
          by_cases heq : 12 * y2 + m2 = 12 * y + m
          · have hy : y2 = y := by omega
            have hm : m2 = m := by omega
            subst hy
            subst hm
            refine Or.inl ?_
            rw [if_pos (by omega), List.mem_singleton]
            exact htx
          · exact Or.inr ⟨y2, m2, hm1, hm2, by omega, hle, hs, ha, htx⟩

/-- Membership in the month-by-month loop: the emitted occurrences are
exactly the monthly candidates from the current (year, month) on that fit
the window end and do not precede the window start or the anchor. -/
theorem monthlyLoop_mem (r : Recurring) (day anchor s e y m : Int)
    (h1 : 1 ≤ m) (h2 : m ≤ 12) (tx : Transaction) :
    tx ∈ monthlyLoop r day anchor s e y m ↔
      ∃ y2 m2 : Int, 1 ≤ m2 ∧ m2 ≤ 12 ∧ 12 * y + m ≤ 12 * y2 + m2 ∧
        dateAtDayOrMonthEnd y2 m2 day ≤ e ∧
        s ≤ dateAtDayOrMonthEnd y2 m2 day ∧
        anchor ≤ dateAtDayOrMonthEnd y2 m2 day ∧
        tx = toTxFromRecurring r (dateAtDayOrMonthEnd y2 m2 day) :=
  monthlyLoop_memFuel r day anchor s e _ y m le_rfl h1 h2 tx

/-! ## Expanded monthly characterization -/

/-- The requested day of month: the explicit override when present, else
the anchor's day of month. -/
def effDOM (r : Recurring) : Int :=
  match r.dayOfMonth with
  | some v => v
  | none => dayOf (truncateDay r.startDate)

theorem expandMonthly_eq (r : Recurring) (s e : Int) :
    expandMonthly r s e =
      monthlyLoop r (effDOM r) (truncateDay r.startDate) s e (yearOf s) (monthOf s) := rfl

/-- Membership in expandMonthly: exactly the in-window monthly candidates at
or after both the window start and the anchor (the start month never cuts
anything off, because every earlier month's candidate precedes the window
start). -/
theorem expandMonthly_mem (r : Recurring) (s e : Int) (tx : Transaction) :
    tx ∈ expandMonthly r s e ↔
      ∃ y2 m2 : Int, 1 ≤ m2 ∧ m2 ≤ 12 ∧
        dateAtDayOrMonthEnd y2 m2 (effDOM r) ≤ e ∧
        s ≤ dateAtDayOrMonthEnd y2 m2 (effDOM r) ∧
        truncateDay r.startDate ≤ dateAtDayOrMonthEnd y2 m2 (effDOM r) ∧
        tx = toTxFromRecurring r (dateAtDayOrMonthEnd y2 m2 (effDOM r)) := by
  have hmm := monthOf_mem s
  rw [expandMonthly_eq,
    monthlyLoop_mem r (effDOM r) (truncateDay r.startDate) s e (yearOf s) (monthOf s)
      hmm.1 hmm.2 tx]
  constructor
  · rintro ⟨y2, m2, hm1, hm2, _, hle, hs, ha, htx⟩
    exact ⟨y2, m2, hm1, hm2, hle, hs, ha, htx⟩
  · rintro ⟨y2, m2, hm1, hm2, hle, hs, ha, htx⟩
    refine ⟨y2, m2, hm1, hm2, ?_, hle, hs, ha, htx⟩
    by_contra hidx
    push_neg at hidx
    have hub := cand_le_monthEnd (effDOM r) y2 m2 hm1 hm2
    have hsucc := monthEnd_succ y2 m2 hm1 hm2
    have hms1 : dateAtDayOrMonthEnd (yearOf s) (monthOf s) 1 ≤ s := by
      rw [cand_one_le (yearOf s) (monthOf s) hmm.1 hmm.2]
      have hb := monthOf_bracket s
      unfold daysBeforeMonth at hb
      omega
    by_cases h12 : m2 = 12
    · rw [if_pos h12] at hsucc
      have hmono := cand_mono 1 (y2 + 1) 1 (yearOf s) (monthOf s) (by omega) (by omega)
        hmm.1 hmm.2 (by omega)
      omega
    · rw [if_neg h12] at hsucc
      have hmono := cand_mono 1 y2 (m2 + 1) (yearOf s) (monthOf s) (by omega) (by omega)
        hmm.1 hmm.2 (by omega)
      omega

/-! ## Yearly loop characterization -/

theorem cand_year_mono (day m : Int) (h1 : 1 ≤ m) (h2 : m ≤ 12) {y1 y2 : Int}
    (h : y1 ≤ y2) :
    dateAtDayOrMonthEnd y1 m day ≤ dateAtDayOrMonthEnd y2 m day := by
  refine @Int.le_induction
    (fun t => dateAtDayOrMonthEnd y1 m day ≤ dateAtDayOrMonthEnd t m day) y1 ?_ ?_ y2 h
  · exact le_rfl
  · intro t ht hIH
    have := dateAt_year_step t m day h1 h2
    omega

/-- A positive requested day keeps the candidate at or after the year
start. -/
theorem cand_ge_yearStart (y m day : Int) (h1 : 1 ≤ m) (h2 : m ≤ 12) (hday : 1 ≤ day) :
    yearStart y ≤ dateAtDayOrMonthEnd y m day := by
  rw [dateAt_val y m day h1 h2]
  have hb := dbm_bounds (leapAdj y) m (leapAdj_cases y) h1 h2
  have hd := dim_bounds (leapAdj y) m (leapAdj_cases y)
  omega

/-- Every candidate precedes the start of the next year. -/
theorem cand_lt_yearStart_succ (y m day : Int) (h1 : 1 ≤ m) (h2 : m ≤ 12) :
    dateAtDayOrMonthEnd y m day < yearStart (y + 1) := by
  rw [dateAt_val y m day h1 h2]
  have hb := dbm_bounds (leapAdj y) m (leapAdj_cases y) h1 h2
  have hd := dim_bounds (leapAdj y) m (leapAdj_cases y)
  have hsucc := yearStart_succ y
  omega

/-- Fuel-indexed form of the year-by-year loop characterization. -/
theorem yearlyLoop_memFuel (r : Recurring) (day month anchor e : Int) :
    ∀ (n : Nat) (y : Int), (e + 1 - dateAtDayOrMonthEnd y month day).toNat ≤ n →
      1 ≤ month → month ≤ 12 → ∀ tx : Transaction,
      (tx ∈ yearlyLoop r day month anchor e y ↔
        ∃ y2 : Int, y ≤ y2 ∧ dateAtDayOrMonthEnd y2 month day ≤ e ∧
          anchor ≤ dateAtDayOrMonthEnd y2 month day ∧
          tx = toTxFromRecurring r (dateAtDayOrMonthEnd y2 month day)) := by
  intro n
  induction n with
  | zero =>
    intro y hn h1 h2 tx
    rw [yearlyLoop, dif_pos ⟨h1, h2⟩]
    have hgt : dateAtDayOrMonthEnd y month day > e := by omega
    rw [if_pos hgt]
    simp only [List.not_mem_nil, false_iff, not_exists]
    rintro y2 ⟨hy2, hle, _⟩
    have := cand_year_mono day month h1 h2 hy2
    omega
  | succ n ih =>
    intro y hn h1 h2 tx
    rw [yearlyLoop, dif_pos ⟨h1, h2⟩]
    by_cases hgt : dateAtDayOrMonthEnd y month day > e
    · rw [if_pos hgt]
      simp only [List.not_mem_nil, false_iff, not_exists]
      rintro y2 ⟨hy2, hle, _⟩
      have := cand_year_mono day month h1 h2 hy2
      omega
    · rw [if_neg hgt, List.mem_append]
      have hstep := dateAt_year_step y month day h1 h2
      have ih2 := ih (y + 1) (by omega) h1 h2 tx
      rw [ih2]
      constructor
      · rintro (hemit | ⟨y2, hy2, hrest⟩)
        · by_cases hem : ¬ dateAtDayOrMonthEnd y month day < anchor
          · rw [if_pos hem, List.mem_singleton] at hemit
            exact ⟨y, le_rfl, by omega, by omega, hemit⟩
          · rw [if_neg hem] at hemit
            exact absurd hemit (List.not_mem_nil tx)
        · exact ⟨y2, by omega, hrest⟩
      · rintro ⟨y2, hy2, hle, ha, htx⟩
        by_cases heq : y2 = y
        · subst heq
          refine Or.inl ?_
          rw [if_pos (by omega), List.mem_singleton]
          exact htx
        · exact Or.inr ⟨y2, by omega, hle, ha, htx⟩

theorem yearlyLoop_mem (r : Recurring) (day month anchor e y : Int)
    (h1 : 1 ≤ month) (h2 : month ≤ 12) (tx : Transaction) :
    tx ∈ yearlyLoop r day month anchor e y ↔
      ∃ y2 : Int, y ≤ y2 ∧ dateAtDayOrMonthEnd y2 month day ≤ e ∧
        anchor ≤ dateAtDayOrMonthEnd y2 month day ∧
        tx = toTxFromRecurring r (dateAtDayOrMonthEnd y2 month day) :=
  yearlyLoop_memFuel r day month anchor e _ y le_rfl h1 h2 tx

theorem expandYearly_eq (r : Recurring) (s e : Int) :
    expandYearly r s e =
      yearlyLoop r (effDOM r) (monthOf (truncateDay r.startDate)) (truncateDay r.startDate) e
        (if dateAtDayOrMonthEnd (yearOf s) (monthOf (truncateDay r.startDate)) (effDOM r) < s
         then yearOf s + 1 else yearOf s) := rfl

/-- Membership in expandYearly for a positive requested day: exactly the
anchor-month candidates inside the window and at or after the anchor; the
initial bump makes the window start an exact cutoff even though the loop
itself never tests it. -/
theorem expandYearly_mem (r : Recurring) (s e : Int) (hday : 1 ≤ effDOM r)
    (tx : Transaction) :
    tx ∈ expandYearly r s e ↔
      ∃ y2 : Int,
        dateAtDayOrMonthEnd y2 (monthOf (truncateDay r.startDate)) (effDOM r) ≤ e ∧
        s ≤ dateAtDayOrMonthEnd y2 (monthOf (truncateDay r.startDate)) (effDOM r) ∧
        truncateDay r.startDate ≤
          dateAtDayOrMonthEnd y2 (monthOf (truncateDay r.startDate)) (effDOM r) ∧
        tx = toTxFromRecurring r
          (dateAtDayOrMonthEnd y2 (monthOf (truncateDay r.startDate)) (effDOM r)) := by
  have hmm := monthOf_mem (truncateDay r.startDate)
  rw [expandYearly_eq]
  set mo := monthOf (truncateDay r.startDate) with hmo
  set y0 := if dateAtDayOrMonthEnd (yearOf s) mo (effDOM r) < s then yearOf s + 1
    else yearOf s with hy0
  rw [yearlyLoop_mem r (effDOM r) mo (truncateDay r.startDate) e y0 hmm.1 hmm.2 tx]
  constructor
  · rintro ⟨y2, hy2, hle, ha, htx⟩
    refine ⟨y2, hle, ?_, ha, htx⟩
    have hys := yearOf_spec s
    by_cases hb : dateAtDayOrMonthEnd (yearOf s) mo (effDOM r) < s
    · rw [hy0, if_pos hb] at hy2
      have hge := cand_ge_yearStart y2 mo (effDOM r) hmm.1 hmm.2 hday
      have hmono := yearStart_mono_ge (show yearOf s + 1 ≤ y2 by omega)
      omega
    · rw [hy0, if_neg hb] at hy2
      push_neg at hb
      have hmono := cand_year_mono (effDOM r) mo hmm.1 hmm.2 hy2
      omega
  · rintro ⟨y2, hle, hs, ha, htx⟩
    refine ⟨y2, ?_, hle, ha, htx⟩
    by_contra hlt
    push_neg at hlt
    by_cases hb : dateAtDayOrMonthEnd (yearOf s) mo (effDOM r) < s
    · rw [hy0, if_pos hb] at hlt
      have hmono := cand_year_mono (effDOM r) mo hmm.1 hmm.2 (show y2 ≤ yearOf s by omega)
      omega
    · rw [hy0, if_neg hb] at hlt
      have hstep := cand_lt_yearStart_succ y2 mo (effDOM r) hmm.1 hmm.2
      have hmono := yearStart_mono_ge (show y2 + 1 ≤ yearOf s by omega)
      have hys := yearOf_spec s
      omega

/-! ## Stored-series validity and expandOne plumbing -/

/-- Validity of a stored recurring series, from the recurring_transactions
DDL in cmd/server/main.go: `day_of_week INT CHECK (day_of_week BETWEEN 0
AND 6)` and `day_of_month INT CHECK (day_of_month BETWEEN 1 AND 31)`. -/
def ValidRecurring (r : Recurring) : Prop :=
  (match r.dayOfWeek with | some w => 0 ≤ w ∧ w ≤ 6 | none => True) ∧
  (match r.dayOfMonth with | some v => 1 ≤ v ∧ v ≤ 31 | none => True)

theorem effDOW_bounds (r : Recurring) (hv : ValidRecurring r) :
    0 ≤ effDOW r ∧ effDOW r ≤ 6 := by
  have h1 := hv.1
  unfold effDOW
  cases hw : r.dayOfWeek with
  | some w =>
    rw [hw] at h1
    exact h1
  | none =>
    have hb := weekday_bounds (truncateDay r.startDate)
    have hb6 : weekday (truncateDay r.startDate) ≤ 6 := by omega
    exact ⟨hb.1, hb6⟩

theorem effDOM_pos (r : Recurring) (hv : ValidRecurring r) : 1 ≤ effDOM r := by
  have h2 := hv.2
  unfold effDOM
  cases hd : r.dayOfMonth with
  | some v =>
    rw [hd] at h2
    exact h2.1
  | none =>
    exact (dayOf_bounds (truncateDay r.startDate)).1

theorem toTx_date (r : Recurring) (d : Int) : (toTxFromRecurring r d).date = d := rfl

theorem expandOne_start_late (r : Recurring) (s e : Int) (h : r.startDate > e) :
    expandOne r s e = [] := by
  unfold expandOne
  rw [if_pos h]

theorem expandOne_ended (r : Recurring) (s e ed : Int) (hed : r.endDate = some ed)
    (h : ed < s) : expandOne r s e = [] := by
  unfold expandOne
  by_cases h1 : r.startDate > e
  · rw [if_pos h1]
  · rw [if_neg h1, hed, if_pos (by simpa using h)]

theorem expandOne_run_none (r : Recurring) (s e : Int) (h1 : ¬ r.startDate > e)
    (hed : r.endDate = none) :
    expandOne r s e = expandDispatch r (maxDate s r.startDate) e := by
  unfold expandOne
  rw [hed, if_neg h1, if_neg (by simp)]

theorem expandOne_run_some (r : Recurring) (s e ed : Int) (h1 : ¬ r.startDate > e)
    (hed : r.endDate = some ed) (h2 : ¬ ed < s) :
    expandOne r s e =
      expandDispatch r (maxDate s r.startDate) (if ed < e then ed else e) := by
  unfold expandOne
  rw [hed, if_neg h1, if_neg (by simpa using h2)]

theorem expandDispatch_weekly (r : Recurring) (W E : Int)
    (h : r.interval = "weekly" ∨ r.interval = "biweekly") :
    expandDispatch r W E = expandWeeklyLike r W E := by
  unfold expandDispatch
  rw [if_pos h]

theorem expandDispatch_monthly (r : Recurring) (W E : Int) (h : r.interval = "monthly") :
    expandDispatch r W E = expandMonthly r W E := by
  unfold expandDispatch
  rw [if_neg (by rw [h]; decide), if_pos h]

theorem expandDispatch_yearly (r : Recurring) (W E : Int) (h : r.interval = "yearly") :
    expandDispatch r W E = expandYearly r W E := by
  unfold expandDispatch
  rw [if_neg (by rw [h]; decide), if_neg (by rw [h]; decide), if_pos h]

theorem expandDispatch_other (r : Recurring) (W E : Int)
    (h1 : ¬ (r.interval = "weekly" ∨ r.interval = "biweekly"))
    (h2 : r.interval ≠ "monthly") (h3 : r.interval ≠ "yearly") :
    expandDispatch r W E = [] := by
  unfold expandDispatch
  rw [if_neg h1, if_neg h2, if_neg h3]

theorem expandOne_other_nil (r : Recurring) (s e : Int)
    (h1 : ¬ (r.interval = "weekly" ∨ r.interval = "biweekly"))
    (h2 : r.interval ≠ "monthly") (h3 : r.interval ≠ "yearly") :
    expandOne r s e = [] := by
  by_cases g1 : r.startDate > e
  · exact expandOne_start_late r s e g1
  · cases hed : r.endDate with
    | some ed =>
      by_cases g2 : ed < s
      · exact expandOne_ended r s e ed hed g2
      · rw [expandOne_run_some r s e ed g1 hed g2]
        exact expandDispatch_other _ _ _ h1 h2 h3
    | none =>
      rw [expandOne_run_none r s e g1 hed]
      exact expandDispatch_other _ _ _ h1 h2 h3

/-! ## Weekly expansion characterization -/

theorem alignToNextOnPhase_eq (anchor start stepDays wantDOW : Int) (h : 0 ≤ wantDOW) :
    alignToNextOnPhase anchor start stepDays wantDOW =
      snapToWeekday (alignLoop start stepDays anchor) wantDOW := by
  unfold alignToNextOnPhase
  rw [if_pos (by omega)]

theorem alignToNextOnPhase_ge (anchor start stepDays wantDOW : Int) (hs : 0 < stepDays)
    (hw : 0 ≤ wantDOW) :
    start ≤ alignToNextOnPhase anchor start stepDays wantDOW := by
  rw [alignToNextOnPhase_eq anchor start stepDays wantDOW hw]
  have h1 := alignLoop_ge_start start stepDays anchor hs
  have h2 := snapToWeekday_ge (alignLoop start stepDays anchor) wantDOW hw
  omega

/-- Membership in expandWeeklyLike, with an in-range target weekday: the
emitted occurrences are the step-multiples of the aligned-and-snapped first
day that do not pass the window end. -/
theorem expandWeeklyLike_mem (r : Recurring) (s e : Int)
    (hw0 : 0 ≤ effDOW r) (hw6 : effDOW r ≤ 6) (tx : Transaction) :
    tx ∈ expandWeeklyLike r s e ↔
      ∃ k : Nat,
        tx = toTxFromRecurring r
          (alignToNextOnPhase (truncateDay r.startDate) s (effStep r) (effDOW r) +
            effStep r * k) ∧
        alignToNextOnPhase (truncateDay r.startDate) s (effStep r) (effDOW r) +
          effStep r * k ≤ e := by
  rw [expandWeeklyLike_eq]
  have hwd : weekday (alignToNextOnPhase (truncateDay r.startDate) s (effStep r)
      (effDOW r)) = effDOW r := by
    rw [alignToNextOnPhase_eq _ _ _ _ hw0]
    exact snapToWeekday_weekday _ _ hw0 hw6
  exact weeklyLoop_mem r (effStep r) (effDOW r) e (effStep_cases r) hw0 hw6 _ hwd tx

/-- When the target weekday agrees with the anchor's weekday (in particular
whenever no explicit day-of-week is stored), the occurrences of
expandWeeklyLike are exactly the anchor phases inside the window. -/
theorem expandWeeklyLike_mem_matching (r : Recurring) (s e : Int)
    (hmatch : effDOW r = weekday (truncateDay r.startDate)) (tx : Transaction) :
    tx ∈ expandWeeklyLike r s e ↔
      ∃ j : Nat,
        tx = toTxFromRecurring r (truncateDay r.startDate + effStep r * j) ∧
        s ≤ truncateDay r.startDate + effStep r * j ∧
        truncateDay r.startDate + effStep r * j ≤ e := by
  have hwb := weekday_bounds (truncateDay r.startDate)
  have hw0 : 0 ≤ effDOW r := by omega
  have hw6 : effDOW r ≤ 6 := by omega
  have hstep := effStep_cases r
  have hpos : 0 < effStep r := by rcases hstep with h | h <;> omega
  obtain ⟨k0, hk0⟩ := alignLoop_phase s (effStep r) (truncateDay r.startDate) hpos
  have hge := alignLoop_ge_start s (effStep r) (truncateDay r.startDate) hpos
  have hwda : weekday (truncateDay r.startDate + effStep r * k0) =
      weekday (truncateDay r.startDate) := by
    rcases hstep with h | h <;> rw [h] <;> unfold weekday <;> omega
  have hsnap : alignToNextOnPhase (truncateDay r.startDate) s (effStep r) (effDOW r) =
      alignLoop s (effStep r) (truncateDay r.startDate) := by
    rw [alignToNextOnPhase_eq _ _ _ _ hw0]
    apply snapToWeekday_id
    rw [hk0, hwda]
    exact hmatch.symm
  rw [expandWeeklyLike_mem r s e hw0 hw6 tx, hsnap]
  constructor
  · rintro ⟨k, rfl, hk⟩
    refine ⟨k0 + k, ?_, ?_, ?_⟩
    · congr 1
      rw [hk0]
      push_cast
      ring
    · rcases hstep with h | h <;> rw [h] at hk0 hge ⊢ <;> omega
    · rw [hk0] at hk
      rcases hstep with h | h <;> rw [h] at hk ⊢ <;> push_cast at hk ⊢ <;> omega
  · rintro ⟨j, rfl, hjs, hje⟩
    have hminj := alignLoop_min s (effStep r) (truncateDay r.startDate) hpos j hjs
    have hk0j : k0 ≤ j := by
      rcases hstep with h | h <;> rw [h] at hk0 hminj <;> omega
    refine ⟨j - k0, ?_, ?_⟩
    · congr 1
      rw [hk0]
      push_cast [Nat.cast_sub hk0j]
      ring
    · rw [hk0]
      push_cast [Nat.cast_sub hk0j]
      linarith

/-! ## expandOne-level membership -/

/-- Occurrences of a weekly or biweekly series through expandOne, when the
target weekday matches the anchor's: exactly the anchor phases that satisfy
the window and the series' own validity interval; the guards of expandOne
are redundant for membership. -/
theorem expandOne_weekly_mem (r : Recurring) (s e : Int)
    (hint : r.interval = "weekly" ∨ r.interval = "biweekly")
    (hmatch : effDOW r = weekday (truncateDay r.startDate)) (tx : Transaction) :
    tx ∈ expandOne r s e ↔
      ∃ j : Nat,
        s ≤ truncateDay r.startDate + effStep r * j ∧
        truncateDay r.startDate + effStep r * j ≤ e ∧
        (match r.endDate with
          | some ed => truncateDay r.startDate + effStep r * j ≤ ed
          | none => True) ∧
        tx = toTxFromRecurring r (truncateDay r.startDate + effStep r * j) := by
  have hT : truncateDay r.startDate = r.startDate := rfl
  have hjnn : ∀ j : Nat, (0 : Int) ≤ effStep r * j := by
    intro j
    rcases effStep_cases r with h | h <;> rw [h] <;> positivity
  by_cases g1 : r.startDate > e
  · rw [expandOne_start_late r s e g1]
    simp only [List.not_mem_nil, false_iff, not_exists]
    rintro j ⟨hjs, hje, hm, htx⟩
    have := hjnn j
    omega
  · cases hed : r.endDate with
    | none =>
      rw [expandOne_run_none r s e g1 hed, expandDispatch_weekly _ _ _ hint,
        expandWeeklyLike_mem_matching r _ e hmatch tx]
      constructor
      · rintro ⟨j, htx, hj1, hj2⟩
        refine ⟨j, ?_, hj2, trivial, htx⟩
        unfold maxDate at hj1
        split at hj1 <;> omega
      · rintro ⟨j, hjs, hje, -, htx⟩
        refine ⟨j, htx, ?_, hje⟩
        have := hjnn j
        unfold maxDate
        split <;> omega
    | some ed =>
      by_cases g2 : ed < s
      · rw [expandOne_ended r s e ed hed g2]
        simp only [List.not_mem_nil, false_iff, not_exists]
        rintro j ⟨hjs, hje, hm, htx⟩
        omega
      · rw [expandOne_run_some r s e ed g1 hed g2, expandDispatch_weekly _ _ _ hint,
          expandWeeklyLike_mem_matching r _ _ hmatch tx]
        constructor
        · rintro ⟨j, htx, hj1, hj2⟩
          refine ⟨j, ?_, ?_, ?_, htx⟩
          · unfold maxDate at hj1
            split at hj1 <;> omega
          · split at hj2 <;> omega
          · split at hj2 <;> omega
        · rintro ⟨j, hjs, hje, hm, htx⟩
          refine ⟨j, htx, ?_, ?_⟩
          · have := hjnn j
            unfold maxDate
            split <;> omega
          · split <;> omega

/-- Occurrences of a monthly series through expandOne: exactly the clamped
monthly candidates inside both the window and the series' validity
interval. -/
theorem expandOne_monthly_mem (r : Recurring) (s e : Int) (hint : r.interval = "monthly")
    (tx : Transaction) :
    tx ∈ expandOne r s e ↔
      ∃ y2 m2 : Int, 1 ≤ m2 ∧ m2 ≤ 12 ∧
        s ≤ dateAtDayOrMonthEnd y2 m2 (effDOM r) ∧
        dateAtDayOrMonthEnd y2 m2 (effDOM r) ≤ e ∧
        r.startDate ≤ dateAtDayOrMonthEnd y2 m2 (effDOM r) ∧
        (match r.endDate with
          | some ed => dateAtDayOrMonthEnd y2 m2 (effDOM r) ≤ ed
          | none => True) ∧
        tx = toTxFromRecurring r (dateAtDayOrMonthEnd y2 m2 (effDOM r)) := by
  have hT : truncateDay r.startDate = r.startDate := rfl
  by_cases g1 : r.startDate > e
  · rw [expandOne_start_late r s e g1]
    simp only [List.not_mem_nil, false_iff, not_exists]
    rintro y2 m2 ⟨_, _, _, hle, hsd, _, _⟩
    omega
  · cases hed : r.endDate with
    | none =>
      rw [expandOne_run_none r s e g1 hed, expandDispatch_monthly _ _ _ hint,
        expandMonthly_mem]
      constructor
      · rintro ⟨y2, m2, hm1, hm2, hle, hw, ha, htx⟩
        refine ⟨y2, m2, hm1, hm2, ?_, hle, ?_, trivial, htx⟩
        · unfold maxDate at hw
          split at hw <;> omega
        · omega
      · rintro ⟨y2, m2, hm1, hm2, hs2, hle, hsd, -, htx⟩
        refine ⟨y2, m2, hm1, hm2, hle, ?_, ?_, htx⟩
        · unfold maxDate
          split <;> omega
        · omega
    | some ed =>
      by_cases g2 : ed < s
      · rw [expandOne_ended r s e ed hed g2]
        simp only [List.not_mem_nil, false_iff, not_exists]
        rintro y2 m2 ⟨_, _, hs2, _, _, hm3, _⟩
        omega
      · rw [expandOne_run_some r s e ed g1 hed g2, expandDispatch_monthly _ _ _ hint,
          expandMonthly_mem]
        constructor
        · rintro ⟨y2, m2, hm1, hm2, hle, hw, ha, htx⟩
          refine ⟨y2, m2, hm1, hm2, ?_, ?_, ?_, ?_, htx⟩
          · unfold maxDate at hw
            split at hw <;> omega
          · split at hle <;> omega
          · omega
          · split at hle <;> omega
        · rintro ⟨y2, m2, hm1, hm2, hs2, hle, hsd, hm3, htx⟩
          refine ⟨y2, m2, hm1, hm2, ?_, ?_, ?_, htx⟩
          · split <;> omega
          · unfold maxDate
            split <;> omega
          · omega

/-- Occurrences of a yearly series through expandOne, for a positive
requested day: exactly the clamped anchor-month candidates inside both the
window and the series' validity interval. -/
theorem expandOne_yearly_mem (r : Recurring) (s e : Int) (hint : r.interval = "yearly")
    (hday : 1 ≤ effDOM r) (tx : Transaction) :
    tx ∈ expandOne r s e ↔
      ∃ y2 : Int,
        s ≤ dateAtDayOrMonthEnd y2 (monthOf (truncateDay r.startDate)) (effDOM r) ∧
        dateAtDayOrMonthEnd y2 (monthOf (truncateDay r.startDate)) (effDOM r) ≤ e ∧
        r.startDate ≤
          dateAtDayOrMonthEnd y2 (monthOf (truncateDay r.startDate)) (effDOM r) ∧
        (match r.endDate with
          | some ed =>
            dateAtDayOrMonthEnd y2 (monthOf (truncateDay r.startDate)) (effDOM r) ≤ ed
          | none => True) ∧
        tx = toTxFromRecurring r
          (dateAtDayOrMonthEnd y2 (monthOf (truncateDay r.startDate)) (effDOM r)) := by
  have hT : truncateDay r.startDate = r.startDate := rfl
  by_cases g1 : r.startDate > e
  · rw [expandOne_start_late r s e g1]
    simp only [List.not_mem_nil, false_iff, not_exists]
    rintro y2 ⟨_, hle, hsd, _, _⟩
    omega
  · cases hed : r.endDate with
    | none =>
      rw [expandOne_run_none r s e g1 hed, expandDispatch_yearly _ _ _ hint,
        expandYearly_mem r _ e hday tx]
      constructor
      · rintro ⟨y2, hle, hw, ha, htx⟩
        refine ⟨y2, ?_, hle, ?_, trivial, htx⟩
        · unfold maxDate at hw
          split at hw <;> omega
        · omega
      · rintro ⟨y2, hs2, hle, hsd, -, htx⟩
        refine ⟨y2, hle, ?_, ?_, htx⟩
        · unfold maxDate
          split <;> omega
        · omega
    | some ed =>
      by_cases g2 : ed < s
      · rw [expandOne_ended r s e ed hed g2]
        simp only [List.not_mem_nil, false_iff, not_exists]
        rintro y2 ⟨hs2, _, _, hm3, _⟩
        omega
      · rw [expandOne_run_some r s e ed g1 hed g2, expandDispatch_yearly _ _ _ hint,
          expandYearly_mem r _ _ hday tx]
        constructor
        · rintro ⟨y2, hle, hw, ha, htx⟩
          refine ⟨y2, ?_, ?_, ?_, ?_, htx⟩
          · unfold maxDate at hw
            split at hw <;> omega
          · split at hle <;> omega
          · omega
          · split at hle <;> omega
        · rintro ⟨y2, hs2, hle, hsd, hm3, htx⟩
          refine ⟨y2, ?_, ?_, ?_, htx⟩
          · split <;> omega
          · unfold maxDate
            split <;> omega
          · omega

/-! ## C6 -/

/-- C6: expandOne returns the empty sequence when the series starts after
the window end, or when a series end is set and lies before the window
start; and for a stored-valid series every emitted occurrence's date lies
within the effective range — at or after both the window start and the
series start, and at or before the window end and (when set) the series
end. -/
theorem expand_effective_range :
    ∀ (r : Recurring) (s e : Int),
      (r.startDate > e → expandOne r s e = []) ∧
      (∀ ed : Int, r.endDate = some ed → ed < s → expandOne r s e = []) ∧
      (ValidRecurring r →
        ∀ tx ∈ expandOne r s e,
          maxDate s r.startDate ≤ tx.date ∧
          tx.date ≤ (match r.endDate with | some ed => min ed e | none => e)) := by
  intro r s e
  refine ⟨fun h => expandOne_start_late r s e h,
    fun ed hed h => expandOne_ended r s e ed hed h, ?_⟩
  intro hv tx htx
  by_cases hw : r.interval = "weekly" ∨ r.interval = "biweekly"
  · obtain ⟨hw0, hw6⟩ := effDOW_bounds r hv
    have hstep := effStep_cases r
    have hpos : 0 < effStep r := by rcases hstep with h | h <;> omega
    have hjnn : ∀ k : Nat, (0 : Int) ≤ effStep r * k := by
      intro k
      rcases hstep with h | h <;> rw [h] <;> positivity
    by_cases g1 : r.startDate > e
    · rw [expandOne_start_late r s e g1] at htx
      exact absurd htx (List.not_mem_nil tx)
    · cases hed : r.endDate with
      | none =>
        rw [expandOne_run_none r s e g1 hed, expandDispatch_weekly _ _ _ hw,
          expandWeeklyLike_mem r _ e hw0 hw6 tx] at htx
        obtain ⟨k, htx2, hk⟩ := htx
        subst htx2
        rw [toTx_date]
        have hge := alignToNextOnPhase_ge (truncateDay r.startDate) (maxDate s r.startDate)
          (effStep r) (effDOW r) hpos hw0
        have hnn := hjnn k
        exact ⟨by omega, hk⟩
      | some ed =>
        by_cases g2 : ed < s
        · rw [expandOne_ended r s e ed hed g2] at htx
          exact absurd htx (List.not_mem_nil tx)
        · rw [expandOne_run_some r s e ed g1 hed g2, expandDispatch_weekly _ _ _ hw,
            expandWeeklyLike_mem r _ _ hw0 hw6 tx] at htx
          obtain ⟨k, htx2, hk⟩ := htx
          subst htx2
          rw [toTx_date]
          have hge := alignToNextOnPhase_ge (truncateDay r.startDate) (maxDate s r.startDate)
            (effStep r) (effDOW r) hpos hw0
          have hnn := hjnn k
          have hred : (match (some ed : Option Int) with
              | some ed => min ed e | none => e) = min ed e := rfl
          rw [hred]
          refine ⟨by omega, ?_⟩
          split at hk <;> omega
  · by_cases hm : r.interval = "monthly"
    · rw [expandOne_monthly_mem r s e hm tx] at htx
      obtain ⟨y2, m2, _, _, hs2, hle, hsd, hm3, htx2⟩ := htx
      subst htx2
      rw [toTx_date]
      cases hed : r.endDate with
      | none =>
        refine ⟨?_, hle⟩
        unfold maxDate
        split <;> omega
      | some ed =>
        have hm4 : dateAtDayOrMonthEnd y2 m2 (effDOM r) ≤ ed := by
          rw [hed] at hm3
          exact hm3
        have hred : (match (some ed : Option Int) with
            | some ed => min ed e | none => e) = min ed e := rfl
        rw [hred]
        refine ⟨?_, by omega⟩
        unfold maxDate
        split <;> omega
    · by_cases hy : r.interval = "yearly"
      · rw [expandOne_yearly_mem r s e hy (effDOM_pos r hv) tx] at htx
        obtain ⟨y2, hs2, hle, hsd, hm3, htx2⟩ := htx
        subst htx2
        rw [toTx_date]
        cases hed : r.endDate with
        | none =>
          refine ⟨?_, hle⟩
          unfold maxDate
          split <;> omega
        | some ed =>
          have hm4 : dateAtDayOrMonthEnd y2 (monthOf (truncateDay r.startDate))
              (effDOM r) ≤ ed := by
            rw [hed] at hm3
            exact hm3
          have hred : (match (some ed : Option Int) with
              | some ed => min ed e | none => e) = min ed e := rfl
          rw [hred]
          refine ⟨?_, by omega⟩
          unfold maxDate
          split <;> omega
      · rw [expandOne_other_nil r s e hw hm hy] at htx
        exact absurd htx (List.not_mem_nil tx)

/-- A valid monthly series used to instantiate C6. -/
def rRange : Recurring :=
  { id := 1, description := "w", type := "income", amount := 1, startDate := 5,
    interval := "monthly", dayOfWeek := none, dayOfMonth := none, endDate := none,
    active := true }

/-- The same series with an end date before the probe window. -/
def rRangeEnded : Recurring := { rRange with endDate := some 2 }

theorem expand_effective_range_witness :
    expandOne rRange 0 1 = [] ∧ expandOne rRangeEnded 5 9 = [] ∧
      ∀ tx ∈ expandOne rRange 3 4, maxDate 3 rRange.startDate ≤ tx.date ∧ tx.date ≤ 4 :=
  ⟨(expand_effective_range rRange 0 1).1 (by decide),
    (expand_effective_range rRangeEnded 5 9).2.1 2 rfl (by decide),
    (expand_effective_range rRange 3 4).2.2 ⟨trivial, trivial⟩⟩

/-! ## C7 -/

/-- The monthly series of the specification example: anchored 2025-01-31,
no explicit day of month. -/
def rMon : Recurring :=
  { id := 7, description := "rent", type := "expense", amount := 100,
    startDate := daysFromCivil 2025 1 31, interval := "monthly",
    dayOfWeek := none, dayOfMonth := none, endDate := none, active := true }

/-- C7: the monthly candidate clamps the requested day to the month's
length (never rolling over into the next month); a monthly series expands
to exactly the clamped candidates of its target day — the explicit day of
month if present, else the anchor's day — skipping candidates before the
effective range start or before the anchor; and the specification example
anchored 2025-01-31 over [2025-02-01, 2025-04-30] yields exactly
2025-02-28, 2025-03-31, 2025-04-30. -/
theorem monthly_clamped_schedule :
    (∀ y m day : Int, 1 ≤ m → m ≤ 12 →
      dateAtDayOrMonthEnd y m day = daysFromCivil y m (min day (daysInMonth y m))) ∧
    (∀ y m day : Int, 1 ≤ m → m ≤ 12 → 1 ≤ day →
      yearOf (dateAtDayOrMonthEnd y m day) = y ∧
      monthOf (dateAtDayOrMonthEnd y m day) = m ∧
      dayOf (dateAtDayOrMonthEnd y m day) = min day (daysInMonth y m)) ∧
    (∀ (r : Recurring) (s e : Int) (tx : Transaction), r.interval = "monthly" →
      (tx ∈ expandOne r s e ↔
        ∃ y2 m2 : Int, 1 ≤ m2 ∧ m2 ≤ 12 ∧
          s ≤ dateAtDayOrMonthEnd y2 m2 (effDOM r) ∧
          dateAtDayOrMonthEnd y2 m2 (effDOM r) ≤ e ∧
          r.startDate ≤ dateAtDayOrMonthEnd y2 m2 (effDOM r) ∧
          (match r.endDate with
            | some ed => dateAtDayOrMonthEnd y2 m2 (effDOM r) ≤ ed
            | none => True) ∧
          tx = toTxFromRecurring r (dateAtDayOrMonthEnd y2 m2 (effDOM r)))) ∧
    (expandOne rMon (daysFromCivil 2025 2 1) (daysFromCivil 2025 4 30)).map
        (fun t => t.date) =
      [daysFromCivil 2025 2 28, daysFromCivil 2025 3 31, daysFromCivil 2025 4 30] := by
  refine ⟨fun y m day h1 h2 => dateAt_eq_min y m day h1 h2, ?_, ?_, ?_⟩
  · intro y m day h1 h2 hday
    rw [dateAt_eq_min y m day h1 h2]
    have hdim : 28 ≤ daysInMonth y m ∧ daysInMonth y m ≤ 31 := by
      unfold daysInMonth
      exact dim_bounds (leapAdj y) m (leapAdj_cases y)
    have hd1 : 1 ≤ min day (daysInMonth y m) := by omega
    have hd2 : min day (daysInMonth y m) ≤ daysInMonth y m := by omega
    exact ⟨yearOf_fromCivil y m _ h1 h2 hd1 hd2, monthOf_fromCivil y m _ h1 h2 hd1 hd2,
      dayOf_fromCivil y m _ h1 h2 hd1 hd2⟩
  · intro r s e tx hint
    exact expandOne_monthly_mem r s e hint tx
  · have hdom : effDOM rMon = 31 := by
      show dayOf (truncateDay rMon.startDate) = 31
      exact dayOf_fromCivil 2025 1 31 (by norm_num) (by norm_num) (by norm_num) (by decide)
    have hyear : yearOf (daysFromCivil 2025 2 1) = 2025 :=
      yearOf_fromCivil 2025 2 1 (by norm_num) (by norm_num) (by norm_num) (by decide)
    have hmonth : monthOf (daysFromCivil 2025 2 1) = 2 :=
      monthOf_fromCivil 2025 2 1 (by norm_num) (by norm_num) (by norm_num) (by decide)
    have hc2 : dateAtDayOrMonthEnd 2025 2 31 = 20147 := by
      rw [dateAt_val 2025 2 31 (by norm_num) (by norm_num)]
      decide
    have hc3 : dateAtDayOrMonthEnd 2025 3 31 = 20178 := by
      rw [dateAt_val 2025 3 31 (by norm_num) (by norm_num)]
      decide
    have hc4 : dateAtDayOrMonthEnd 2025 4 31 = 20208 := by
      rw [dateAt_val 2025 4 31 (by norm_num) (by norm_num)]
      decide
    have hc5 : dateAtDayOrMonthEnd 2025 5 31 = 20239 := by
      rw [dateAt_val 2025 5 31 (by norm_num) (by norm_num)]
      decide
    rw [expandOne_run_none rMon _ _ (by decide) rfl, expandDispatch_monthly _ _ _ rfl,
      expandMonthly_eq, hdom]
    have hW : maxDate (daysFromCivil 2025 2 1) rMon.startDate = daysFromCivil 2025 2 1 := by
      decide
    rw [hW, hyear, hmonth]
    have hA : truncateDay rMon.startDate = 20119 := by decide
    have hs0 : daysFromCivil 2025 2 1 = 20120 := by decide
    have he0 : daysFromCivil 2025 4 30 = 20208 := by decide
    have hr1 : daysFromCivil 2025 2 28 = 20147 := by decide
    have hr2 : daysFromCivil 2025 3 31 = 20178 := by decide
    rw [hA, hs0, he0, hr1, hr2]
    rw [monthlyLoop, dif_pos (show (1 : Int) ≤ 2 ∧ (2 : Int) ≤ 12 by norm_num), hc2,
      if_neg (by norm_num), if_pos (by norm_num), dif_neg (by norm_num),
      show (2 : Int) + 1 = 3 by norm_num]
    rw [monthlyLoop, dif_pos (show (1 : Int) ≤ 3 ∧ (3 : Int) ≤ 12 by norm_num), hc3,
      if_neg (by norm_num), if_pos (by norm_num), dif_neg (by norm_num),
      show (3 : Int) + 1 = 4 by norm_num]
    rw [monthlyLoop, dif_pos (show (1 : Int) ≤ 4 ∧ (4 : Int) ≤ 12 by norm_num), hc4,
      if_neg (by norm_num), if_pos (by norm_num), dif_neg (by norm_num),
      show (4 : Int) + 1 = 5 by norm_num]
    rw [monthlyLoop, dif_pos (show (1 : Int) ≤ 5 ∧ (5 : Int) ≤ 12 by norm_num), hc5,
      if_pos (by norm_num)]
    rfl

theorem monthly_clamped_schedule_witness :
    dateAtDayOrMonthEnd 2025 2 31 = daysFromCivil 2025 2 (min 31 (daysInMonth 2025 2)) ∧
      yearOf (dateAtDayOrMonthEnd 2025 2 31) = 2025 ∧
      monthOf (dateAtDayOrMonthEnd 2025 2 31) = 2 ∧
      dayOf (dateAtDayOrMonthEnd 2025 2 31) = min 31 (daysInMonth 2025 2) ∧
      (toTxFromRecurring rMon 20147 ∈ expandOne rMon 20120 20208 ↔
        ∃ y2 m2 : Int, 1 ≤ m2 ∧ m2 ≤ 12 ∧
          20120 ≤ dateAtDayOrMonthEnd y2 m2 (effDOM rMon) ∧
          dateAtDayOrMonthEnd y2 m2 (effDOM rMon) ≤ 20208 ∧
          rMon.startDate ≤ dateAtDayOrMonthEnd y2 m2 (effDOM rMon) ∧
          (match rMon.endDate with
            | some ed => dateAtDayOrMonthEnd y2 m2 (effDOM rMon) ≤ ed
            | none => True) ∧
          toTxFromRecurring rMon 20147 =
            toTxFromRecurring rMon (dateAtDayOrMonthEnd y2 m2 (effDOM rMon))) :=
  ⟨monthly_clamped_schedule.1 2025 2 31 (by norm_num) (by norm_num),
    (monthly_clamped_schedule.2.1 2025 2 31 (by norm_num) (by norm_num) (by norm_num)).1,
    (monthly_clamped_schedule.2.1 2025 2 31 (by norm_num) (by norm_num) (by norm_num)).2.1,
    (monthly_clamped_schedule.2.1 2025 2 31 (by norm_num) (by norm_num) (by norm_num)).2.2,
    monthly_clamped_schedule.2.2.1 rMon 20120 20208 (toTxFromRecurring rMon 20147) rfl⟩

/-! ## C9 -/

/-- A candidate with a positive requested day stays inside its (year,
month): no rollover. -/
theorem cand_yearOf_monthOf (y m day : Int) (h1 : 1 ≤ m) (h2 : m ≤ 12) (hday : 1 ≤ day) :
    yearOf (dateAtDayOrMonthEnd y m day) = y ∧
      monthOf (dateAtDayOrMonthEnd y m day) = m := by
  rw [dateAt_eq_min y m day h1 h2]
  have hdim : 28 ≤ daysInMonth y m ∧ daysInMonth y m ≤ 31 := by
    unfold daysInMonth
    exact dim_bounds (leapAdj y) m (leapAdj_cases y)
  have hd1 : 1 ≤ min day (daysInMonth y m) := by omega
  have hd2 : min day (daysInMonth y m) ≤ daysInMonth y m := by omega
  exact ⟨yearOf_fromCivil y m _ h1 h2 hd1 hd2, monthOf_fromCivil y m _ h1 h2 hd1 hd2⟩

/-- The year-by-year loop emits years in strictly increasing order: at most
one occurrence per calendar year. -/
theorem yearlyLoop_pairwiseFuel (r : Recurring) (day month anchor e : Int)
    (hday : 1 ≤ day) :
    ∀ (n : Nat) (y : Int), (e + 1 - dateAtDayOrMonthEnd y month day).toNat ≤ n →
      1 ≤ month → month ≤ 12 →
      List.Pairwise (fun a b : Transaction => yearOf a.date < yearOf b.date)
        (yearlyLoop r day month anchor e y) := by
  intro n
  induction n with
  | zero =>
    intro y hn h1 h2
    rw [yearlyLoop, dif_pos ⟨h1, h2⟩, if_pos (by omega)]
    exact List.Pairwise.nil
  | succ n ih =>
    intro y hn h1 h2
    rw [yearlyLoop, dif_pos ⟨h1, h2⟩]
    by_cases hgt : dateAtDayOrMonthEnd y month day > e
    · rw [if_pos hgt]
      exact List.Pairwise.nil
    · rw [if_neg hgt]
      have hstep := dateAt_year_step y month day h1 h2
      have hrest := ih (y + 1) (by omega) h1 h2
      rw [List.pairwise_append]
      refine ⟨?_, hrest, ?_⟩
      · by_cases hem : ¬ dateAtDayOrMonthEnd y month day < anchor
        · rw [if_pos hem]
          exact List.pairwise_singleton _ _
        · rw [if_neg hem]
          exact List.Pairwise.nil
      · intro a ha b hb
        have hb2 := (yearlyLoop_mem r day month anchor e (y + 1) h1 h2 b).mp hb
        obtain ⟨y2, hy2, _, _, htb⟩ := hb2
        have ha2 : a = toTxFromRecurring r (dateAtDayOrMonthEnd y month day) := by
          by_cases hem : ¬ dateAtDayOrMonthEnd y month day < anchor
          · rw [if_pos hem, List.mem_singleton] at ha
            exact ha
          · rw [if_neg hem] at ha
            exact absurd ha (List.not_mem_nil a)
        rw [ha2, htb, toTx_date, toTx_date,
          (cand_yearOf_monthOf y month day h1 h2 hday).1,
          (cand_yearOf_monthOf y2 month day h1 h2 hday).1]
        omega

/-- The yearly series of the C9 counterexample: anchored 2025-03-10 with an
explicit day of month 25. -/
def rYr : Recurring :=
  { id := 2, description := "ins", type := "expense", amount := 10,
    startDate := daysFromCivil 2025 3 10, interval := "yearly",
    dayOfWeek := none, dayOfMonth := some 25, endDate := none, active := true }

/-- C9 counterexample: a yearly series anchored 2025-03-10 with explicit
day-of-month 25 emits 2025-03-25, not the anchor's day 10 — the emitted
occurrences do not fall on the anchor's (month, day) pair when a
day-of-month override is stored. -/
theorem yearly_ignores_anchor_day :
    (expandOne rYr (daysFromCivil 2025 1 1) (daysFromCivil 2025 12 31)).map
        (fun t => t.date) = [daysFromCivil 2025 3 25] ∧
      dayOf (truncateDay rYr.startDate) = 10 ∧
      dayOf (daysFromCivil 2025 3 25) = 25 := by
  refine ⟨?_, ?_, ?_⟩
  · have hdom : effDOM rYr = 25 := rfl
    have hmoA : monthOf (truncateDay rYr.startDate) = 3 :=
      monthOf_fromCivil 2025 3 10 (by norm_num) (by norm_num) (by norm_num) (by decide)
    have hC : dateAtDayOrMonthEnd 2025 3 25 = 20172 := by
      rw [dateAt_val 2025 3 25 (by norm_num) (by norm_num)]
      decide
    have hC2 : dateAtDayOrMonthEnd 2026 3 25 = 20537 := by
      rw [dateAt_val 2026 3 25 (by norm_num) (by norm_num)]
      decide
    rw [expandOne_run_none rYr _ _ (by decide) rfl, expandDispatch_yearly _ _ _ rfl,
      expandYearly_eq, hdom, hmoA]
    have hA : truncateDay rYr.startDate = 20157 := by decide
    have hw : maxDate (daysFromCivil 2025 1 1) rYr.startDate = 20157 := by decide
    have he0 : daysFromCivil 2025 12 31 = 20453 := by decide
    have hr : daysFromCivil 2025 3 25 = 20172 := by decide
    have hy157 : yearOf (20157 : Int) = 2025 := by
      rw [show (20157 : Int) = daysFromCivil 2025 3 10 by decide]
      exact yearOf_fromCivil 2025 3 10 (by norm_num) (by norm_num) (by norm_num) (by decide)
    rw [hA, hw, he0, hr, hy157, hC, if_neg (by norm_num)]
    rw [yearlyLoop, dif_pos (show (1 : Int) ≤ 3 ∧ (3 : Int) ≤ 12 by norm_num), hC,
      if_neg (by norm_num), if_pos (by norm_num),
      show (2025 : Int) + 1 = 2026 by norm_num]
    rw [yearlyLoop, dif_pos (show (1 : Int) ≤ 3 ∧ (3 : Int) ≤ 12 by norm_num), hC2,
      if_pos (by norm_num)]
    rfl
  · exact dayOf_fromCivil 2025 3 10 (by norm_num) (by norm_num) (by norm_num) (by decide)
  · exact dayOf_fromCivil 2025 3 25 (by norm_num) (by norm_num) (by norm_num) (by decide)

/-- C9 amended: yearly occurrences fall on the clamped (anchor month,
target day) pair, where the target day is the explicit day-of-month when
present and the anchor's day otherwise; the clamping rule is the monthly
one; occurrences are exactly the in-window candidates at or after both the
window start and the anchor; and there is at most one occurrence per
calendar year. -/
theorem yearly_clamped_target_schedule :
    (∀ y m day : Int, 1 ≤ m → m ≤ 12 →
      dateAtDayOrMonthEnd y m day = daysFromCivil y m (min day (daysInMonth y m))) ∧
    (∀ (r : Recurring) (s e : Int) (tx : Transaction),
      r.interval = "yearly" → ValidRecurring r →
      (tx ∈ expandOne r s e ↔
        ∃ y2 : Int,
          s ≤ dateAtDayOrMonthEnd y2 (monthOf (truncateDay r.startDate)) (effDOM r) ∧
          dateAtDayOrMonthEnd y2 (monthOf (truncateDay r.startDate)) (effDOM r) ≤ e ∧
          r.startDate ≤
            dateAtDayOrMonthEnd y2 (monthOf (truncateDay r.startDate)) (effDOM r) ∧
          (match r.endDate with
            | some ed =>
              dateAtDayOrMonthEnd y2 (monthOf (truncateDay r.startDate)) (effDOM r) ≤ ed
            | none => True) ∧
          tx = toTxFromRecurring r
            (dateAtDayOrMonthEnd y2 (monthOf (truncateDay r.startDate)) (effDOM r)))) ∧
    (∀ (r : Recurring) (s e : Int), r.interval = "yearly" → ValidRecurring r →
      List.Pairwise (fun a b : Transaction => yearOf a.date < yearOf b.date)
        (expandOne r s e)) := by
  refine ⟨fun y m day h1 h2 => dateAt_eq_min y m day h1 h2, ?_, ?_⟩
  · intro r s e tx hint hv
    exact expandOne_yearly_mem r s e hint (effDOM_pos r hv) tx
  · intro r s e hint hv
    have hday := effDOM_pos r hv
    have hmm := monthOf_mem (truncateDay r.startDate)
    by_cases g1 : r.startDate > e
    · rw [expandOne_start_late r s e g1]
      exact List.Pairwise.nil
    · cases hed : r.endDate with
      | none =>
        rw [expandOne_run_none r s e g1 hed, expandDispatch_yearly _ _ _ hint,
          expandYearly_eq]
        exact yearlyLoop_pairwiseFuel r (effDOM r) (monthOf (truncateDay r.startDate))
          (truncateDay r.startDate) e hday _ _ le_rfl hmm.1 hmm.2
      | some ed =>
        by_cases g2 : ed < s
        · rw [expandOne_ended r s e ed hed g2]
          exact List.Pairwise.nil
        · rw [expandOne_run_some r s e ed g1 hed g2, expandDispatch_yearly _ _ _ hint,
            expandYearly_eq]
          exact yearlyLoop_pairwiseFuel r (effDOM r) (monthOf (truncateDay r.startDate))
            (truncateDay r.startDate) _ hday _ _ le_rfl hmm.1 hmm.2

theorem rYr_valid : ValidRecurring rYr := ⟨trivial, ⟨by norm_num, by norm_num⟩⟩

theorem yearly_clamped_target_schedule_witness :
    dateAtDayOrMonthEnd 2025 2 30 = daysFromCivil 2025 2 (min 30 (daysInMonth 2025 2)) ∧
      List.Pairwise (fun a b : Transaction => yearOf a.date < yearOf b.date)
        (expandOne rYr 0 5) :=
  ⟨yearly_clamped_target_schedule.1 2025 2 30 (by norm_num) (by norm_num),
    yearly_clamped_target_schedule.2.2 rYr 0 5 rfl rYr_valid⟩

/-! ## C1 -/

/-- The weekly series of the C1 counterexample: anchored on epoch day 0 (a
Thursday) with an explicit day-of-week 3 (Wednesday). -/
def rWkO : Recurring :=
  { id := 1, description := "pay", type := "income", amount := 5,
    startDate := 0, interval := "weekly",
    dayOfWeek := some 3, dayOfMonth := none, endDate := none, active := true }

/-- C1 counterexample: for the weekly series anchored day 0 (Thursday) with
explicit day-of-week 3, the combined window [0, 20] yields days 6, 13 and
20, but the adjacent split [0, 5] and [6, 20] together yield only 13 and
20: the boundary occurrence on day 6 is dropped, so splitting a window is
not composable when the override differs from the anchor's weekday. -/
theorem weekly_override_split_gap :
    (expandOne rWkO 0 20).map (fun t => t.date) = [6, 13, 20] ∧
      (expandOne rWkO 0 5).map (fun t => t.date) ++
          (expandOne rWkO 6 20).map (fun t => t.date) = [13, 20] := by
  have hdif : (7 : Int) ≤ 7 ∧ (-7 : Int) ≤ 3 := by norm_num
  have hs6 : weeklySnap 3 6 = 6 := by decide
  have hs13 : weeklySnap 3 13 = 13 := by decide
  have hs20 : weeklySnap 3 20 = 20 := by decide
  have hst : effStep rWkO = 7 := by decide
  have hdow : effDOW rWkO = 3 := rfl
  have hA : truncateDay rWkO.startDate = 0 := rfl
  have ha1 : alignLoop 0 7 0 = 0 := by
    rw [alignLoop, dif_neg (show ¬ (0 : Int) < 0 by norm_num)]
  have hfirst : alignToNextOnPhase 0 0 7 3 = 6 := by
    unfold alignToNextOnPhase
    rw [if_pos (by norm_num), ha1]
    decide
  have ha2 : alignLoop 6 7 0 = 7 := by
    rw [alignLoop, dif_pos (show (0 : Int) < 6 by norm_num),
      dif_pos (show (0 : Int) < 7 by norm_num), show (0 : Int) + 7 = 7 by norm_num,
      alignLoop, dif_neg (show ¬ (7 : Int) < 6 by norm_num)]
  have hfirst2 : alignToNextOnPhase 0 6 7 3 = 13 := by
    unfold alignToNextOnPhase
    rw [if_pos (by norm_num), ha2]
    decide
  constructor
  · rw [expandOne_run_none rWkO 0 20 (by decide) rfl,
      expandDispatch_weekly _ _ _ (Or.inl rfl), expandWeeklyLike_eq, hst, hdow, hA,
      show maxDate 0 rWkO.startDate = 0 by decide, hfirst]
    rw [weeklyLoop, dif_pos hdif, if_neg (show ¬ (6 : Int) > 20 by norm_num), hs6,
      show (6 : Int) + 7 = 13 by norm_num]
    rw [weeklyLoop, dif_pos hdif, if_neg (show ¬ (13 : Int) > 20 by norm_num), hs13,
      show (13 : Int) + 7 = 20 by norm_num]
    rw [weeklyLoop, dif_pos hdif, if_neg (show ¬ (20 : Int) > 20 by norm_num), hs20,
      show (20 : Int) + 7 = 27 by norm_num]
    rw [weeklyLoop, dif_pos hdif, if_pos (show (27 : Int) > 20 by norm_num)]
    rfl
  · rw [expandOne_run_none rWkO 0 5 (by decide) rfl,
      expandDispatch_weekly _ _ _ (Or.inl rfl), expandWeeklyLike_eq, hst, hdow, hA,
      show maxDate 0 rWkO.startDate = 0 by decide, hfirst]
    rw [weeklyLoop, dif_pos hdif, if_pos (show (6 : Int) > 5 by norm_num)]
    rw [expandOne_run_none rWkO 6 20 (by decide) rfl,
      expandDispatch_weekly _ _ _ (Or.inl rfl), expandWeeklyLike_eq, hst, hdow, hA,
      show maxDate 6 rWkO.startDate = 6 by decide, hfirst2]
    rw [weeklyLoop, dif_pos hdif, if_neg (show ¬ (13 : Int) > 20 by norm_num), hs13,
      show (13 : Int) + 7 = 20 by norm_num]
    rw [weeklyLoop, dif_pos hdif, if_neg (show ¬ (20 : Int) > 20 by norm_num), hs20,
      show (20 : Int) + 7 = 27 by norm_num]
    rw [weeklyLoop, dif_pos hdif, if_pos (show (27 : Int) > 20 by norm_num)]
    rfl

/-- C1 amended: splitting a window into adjacent halves is composable — the
combined expansion's occurrence set is exactly the union of the two halves'
and the halves are disjoint — for every stored-valid series of any
interval, provided that for weekly and biweekly series the effective
day-of-week (the override when present, else the anchor's weekday) equals
the anchor's weekday; the counterexample shows the proviso is necessary. -/
theorem expand_window_composable :
    ∀ (r : Recurring) (a m b : Int), ValidRecurring r →
      ((r.interval = "weekly" ∨ r.interval = "biweekly") →
        effDOW r = weekday (truncateDay r.startDate)) →
      a ≤ m → m < b →
      ∀ tx : Transaction,
        (tx ∈ expandOne r a b ↔ (tx ∈ expandOne r a m ∨ tx ∈ expandOne r (m + 1) b)) ∧
        ¬ (tx ∈ expandOne r a m ∧ tx ∈ expandOne r (m + 1) b) := by
  intro r a m b hv hmatch ham hmb tx
  by_cases hw : r.interval = "weekly" ∨ r.interval = "biweekly"
  · have hm := hmatch hw
    constructor
    · rw [expandOne_weekly_mem r a b hw hm tx, expandOne_weekly_mem r a m hw hm tx,
        expandOne_weekly_mem r (m + 1) b hw hm tx]
      constructor
      · rintro ⟨j, hjs, hje, hmtch, htx⟩
        by_cases hsplit : truncateDay r.startDate + effStep r * j ≤ m
        · exact Or.inl ⟨j, hjs, hsplit, hmtch, htx⟩
        · exact Or.inr ⟨j, by omega, hje, hmtch, htx⟩
      · rintro (⟨j, hjs, hje, hmtch, htx⟩ | ⟨j, hjs, hje, hmtch, htx⟩)
        · exact ⟨j, hjs, by omega, hmtch, htx⟩
        · exact ⟨j, by omega, hje, hmtch, htx⟩
    · rw [expandOne_weekly_mem r a m hw hm tx, expandOne_weekly_mem r (m + 1) b hw hm tx]
      rintro ⟨⟨j1, hj1s, hj1e, -, htx1⟩, ⟨j2, hj2s, hj2e, -, htx2⟩⟩
      have h1 : tx.date = truncateDay r.startDate + effStep r * j1 := by
        rw [htx1, toTx_date]
      have h2 : tx.date = truncateDay r.startDate + effStep r * j2 := by
        rw [htx2, toTx_date]
      omega
  · by_cases hmo : r.interval = "monthly"
    · constructor
      · rw [expandOne_monthly_mem r a b hmo tx, expandOne_monthly_mem r a m hmo tx,
          expandOne_monthly_mem r (m + 1) b hmo tx]
        constructor
        · rintro ⟨y2, m2, hm1, hm2, hjs, hje, hsd, hmtch, htx⟩
          by_cases hsplit : dateAtDayOrMonthEnd y2 m2 (effDOM r) ≤ m
          · exact Or.inl ⟨y2, m2, hm1, hm2, hjs, hsplit, hsd, hmtch, htx⟩
          · exact Or.inr ⟨y2, m2, hm1, hm2, by omega, hje, hsd, hmtch, htx⟩
        · rintro (⟨y2, m2, hm1, hm2, hjs, hje, hsd, hmtch, htx⟩ |
            ⟨y2, m2, hm1, hm2, hjs, hje, hsd, hmtch, htx⟩)
          · exact ⟨y2, m2, hm1, hm2, hjs, by omega, hsd, hmtch, htx⟩
          · exact ⟨y2, m2, hm1, hm2, by omega, hje, hsd, hmtch, htx⟩
      · rw [expandOne_monthly_mem r a m hmo tx, expandOne_monthly_mem r (m + 1) b hmo tx]
        rintro ⟨⟨y2, m2, -, -, -, hj1e, -, -, htx1⟩, ⟨y3, m3, -, -, hj2s, -, -, -, htx2⟩⟩
        have h1 : tx.date = dateAtDayOrMonthEnd y2 m2 (effDOM r) := by
          rw [htx1, toTx_date]
        have h2 : tx.date = dateAtDayOrMonthEnd y3 m3 (effDOM r) := by
          rw [htx2, toTx_date]
        omega
    · by_cases hy : r.interval = "yearly"
      · have hday := effDOM_pos r hv
        constructor
        · rw [expandOne_yearly_mem r a b hy hday tx, expandOne_yearly_mem r a m hy hday tx,
            expandOne_yearly_mem r (m + 1) b hy hday tx]
          constructor
          · rintro ⟨y2, hjs, hje, hsd, hmtch, htx⟩
            by_cases hsplit :
                dateAtDayOrMonthEnd y2 (monthOf (truncateDay r.startDate)) (effDOM r) ≤ m
            · exact Or.inl ⟨y2, hjs, hsplit, hsd, hmtch, htx⟩
            · exact Or.inr ⟨y2, by omega, hje, hsd, hmtch, htx⟩
          · rintro (⟨y2, hjs, hje, hsd, hmtch, htx⟩ | ⟨y2, hjs, hje, hsd, hmtch, htx⟩)
            · exact ⟨y2, hjs, by omega, hsd, hmtch, htx⟩
            · exact ⟨y2, by omega, hje, hsd, hmtch, htx⟩
        · rw [expandOne_yearly_mem r a m hy hday tx,
            expandOne_yearly_mem r (m + 1) b hy hday tx]
          rintro ⟨⟨y2, -, hj1e, -, -, htx1⟩, ⟨y3, hj2s, -, -, -, htx2⟩⟩
          have h1 : tx.date =
              dateAtDayOrMonthEnd y2 (monthOf (truncateDay r.startDate)) (effDOM r) := by
            rw [htx1, toTx_date]
          have h2 : tx.date =
              dateAtDayOrMonthEnd y3 (monthOf (truncateDay r.startDate)) (effDOM r) := by
            rw [htx2, toTx_date]
          omega
      · rw [expandOne_other_nil r a b hw hmo hy, expandOne_other_nil r a m hw hmo hy,
          expandOne_other_nil r (m + 1) b hw hmo hy]
        simp

/-- A valid weekly series with no override, used to instantiate the amended
composability statement. -/
def rCmp : Recurring :=
  { id := 3, description := "chk", type := "income", amount := 2,
    startDate := 0, interval := "weekly",
    dayOfWeek := none, dayOfMonth := none, endDate := none, active := true }

theorem expand_window_composable_witness :
    (toTxFromRecurring rCmp 0 ∈ expandOne rCmp 0 8 ↔
      (toTxFromRecurring rCmp 0 ∈ expandOne rCmp 0 3 ∨
        toTxFromRecurring rCmp 0 ∈ expandOne rCmp 4 8)) ∧
      ¬ (toTxFromRecurring rCmp 0 ∈ expandOne rCmp 0 3 ∧
        toTxFromRecurring rCmp 0 ∈ expandOne rCmp 4 8) :=
  expand_window_composable rCmp 0 3 8 ⟨trivial, trivial⟩ (fun _ => rfl) (by norm_num)
    (by norm_num) (toTxFromRecurring rCmp 0)

end Currentz
